import Mathlib

/-!
Verification development for the synthesizable-container core of the
django-locallibrary-tutorial repository (catalog/db.py and
catalog/synthesis.py).

The Python code is shallowly embedded:

* `UntrustedInt` / `UntrustedStr` model the external untrusted-value
  collaborator (`django.core.untrustedtypes`): a raw value plus the
  `synthesized` flag.  Comparison, hashing and truthiness delegate to the
  raw value, as the specification requires.  Python truthiness of the raw
  value (`0` and the empty string are falsy) is modelled explicitly,
  because `catalog/db.py` branches on it.
* The Z3 solver is modelled by an oracle: a function from the accumulated
  constraint list to an optional model value.  Soundness of an oracle
  (any value it returns satisfies every accumulated constraint) is the
  interface guarantee of Z3's `check`/`model`; `check` may also fail to
  produce a model (unsat or unknown), which is the `none` result.
* Python exceptions are the `PyErr` error type threaded through `Except`;
  a container operation returns its (possibly mutated) state next to the
  `Except` result because a Python exception leaves prior in-place
  mutations visible.
* Element slots of the mutable containers have type `Option UntrustedInt`:
  Python lists can hold `None`, and the failure paths of
  `catalog/db.py` do write `to_python(None) = None` into a slot.
-/

/-- Python exception classes raised (directly or by Z3) in the embedded code. -/
inductive PyErr where
  | indexError
  | valueError
  | typeError
  | keyError
  | z3Error
  | unsupportedDomain
deriving DecidableEq, Repr

/-- Result test for `Except`: `true` exactly on `.ok`. -/
def isOkE {ε α : Type} : Except ε α → Bool
  | .ok _ => true
  | .error _ => false

/-- UntrustedInt of django.core.untrustedtypes (external collaborator,
modelled from the spec): an integer raw value and the synthesized flag.
Ordering, equality and Python truthiness delegate to the raw value. -/
structure UntrustedInt where
  val : Int
  synthesized : Bool
deriving DecidableEq, Repr

/-- UntrustedStr of django.core.untrustedtypes (external collaborator,
modelled from the spec): the raw character-code list and the synthesized
flag. -/
structure UntrustedStr where
  data : List Nat
  synthesized : Bool
deriving DecidableEq, Repr

/-- Python truthiness of an optional UntrustedInt slot: `None` and the
raw value `0` are falsy (`bool(UntrustedInt(0)) = False` because the
wrapper delegates to `int`). -/
def truthyO (x : Option UntrustedInt) : Bool :=
  match x with
  | none => false
  | some v => v.val != 0

/-- Constraint language accumulated by `IntSynthesizer`'s Z3 solver in
catalog/synthesis.py: `self.var < b`, `self.var > b`, and
`func(self.var) == t` from `eq_constraint`. -/
inductive IntC where
  | clt (b : Int)
  | cgt (b : Int)
  | ceq (f : Int → Int) (t : Int)

/-- Semantics of one integer constraint at a candidate model value. -/
def intHoldsB (c : IntC) (v : Int) : Bool :=
  match c with
  | .clt b => decide (v < b)
  | .cgt b => decide (b < v)
  | .ceq f t => decide (f v = t)

/-- An integer solver oracle is sound when every model value it produces
satisfies every accumulated constraint (the guarantee of Z3's model). -/
def intOracleSound (oracle : List IntC → Option Int) : Prop :=
  ∀ cs v, oracle cs = some v → ∀ c ∈ cs, intHoldsB c v = true

/-- Candidate-checking oracle: propose the fixed value `w`, succeed only
when `w` satisfies every constraint.  Sound by construction; used to
instantiate runs with a definite solver choice. -/
def intTry (w : Int) (cs : List IntC) : Option Int :=
  if cs.all (fun c => intHoldsB c w) then some w else none

/-!
SynthesizableSortedList (catalog/db.py lines 274-329).

The sortedcontainers `SortedList` base class is an external library.
Modelled from the spec: the segmented internal representation
(`_lists`/`_maxes`/`_pos`) is represented by its logical element
sequence; the overridden `__setitem__` is a positional overwrite and
`__getitem__` is positional access that raises `IndexError` when the
index is outside `[0, len)`.  (Negative indices never reach `__getitem__`
from `synthesis`, so the negative-wrap behaviour of sortedcontainers is
not modelled.)

This embedding is instantiated at the integer element domain
(`init_synthesizer` selects `IntSynthesizer`); `init_synthesizer` itself
is imported by catalog/db.py but missing from the sources.
Modelled from the spec: init_synthesizer builds a Synthesizer for the
value's domain and signals a structural error on an unsupported domain
(such as a `None` slot). -/
structure SSortedList where
  data : List (Option UntrustedInt)
deriving DecidableEq, Repr

/-- Positional `__getitem__` of the sorted-list collaborator. -/
def slGet (l : List (Option UntrustedInt)) (i : Int) : Except PyErr (Option UntrustedInt) :=
  if 0 ≤ i ∧ i < l.length then
    match l[i.toNat]? with
    | some x => .ok x
    | none => .error .indexError
  else .error .indexError

/-- IntSynthesizer.lt_constraint applied to a Python value that may be
`None`: Z3 raises when asked to compare its variable with `None`. -/
def intLtC (b : Option UntrustedInt) : Except PyErr IntC :=
  match b with
  | none => .error .z3Error
  | some v => .ok (.clt v.val)

/-- IntSynthesizer.gt_constraint, as `intLtC`. -/
def intGtC (b : Option UntrustedInt) : Except PyErr IntC :=
  match b with
  | none => .error .z3Error
  | some v => .ok (.cgt v.val)

/-- SynthesizableSortedList.synthesis (catalog/db.py lines 307-329),
instantiated at the integer domain.  Returns the list state next to the
Python result: the state is returned even on an exception because
exceptions leave prior in-place mutations visible. -/
def slSynthesis (oracle : List IntC → Option Int) (l : SSortedList) (index : Int) :
    SSortedList × Except PyErr Bool :=
  if (l.data.length : Int) ≤ index ∨ index < 0 then (l, .error .indexError)
  else
    match slGet l.data index with
    | .error e => (l, .error e)
    | .ok none => (l, .error .unsupportedDomain)
    | .ok (some _) =>
      let csE : Except PyErr (List IntC) :=
        if index = 0 then
          match slGet l.data (index + 1) with
          | .error e => .error e
          | .ok w => (intLtC w).map (fun c => [c])
        else if index = (l.data.length : Int) - 1 then
          match slGet l.data (index - 1) with
          | .error e => .error e
          | .ok w => (intGtC w).map (fun c => [c])
        else
          match slGet l.data (index + 1) with
          | .error e => .error e
          | .ok w1 =>
            match slGet l.data (index - 1) with
            | .error e => .error e
            | .ok w2 =>
              match intLtC w1 with
              | .error e => .error e
              | .ok c1 =>
                match intGtC w2 with
                | .error e => .error e
                | .ok c2 => .ok [c1, c2]
      match csE with
      | .error e => (l, .error e)
      | .ok cs =>
        let synthesized : Option UntrustedInt :=
          (oracle cs).map (fun n => { val := n, synthesized := true })
        ({ data := l.data.set index.toNat synthesized }, .ok true)

/-- The three-element all-fives list of the C1 failing input
(`UntrustedInt(5)` three times, as a SortedList permits duplicates). -/
def l555 : SSortedList :=
  { data := [some { val := 5, synthesized := false },
             some { val := 5, synthesized := false },
             some { val := 5, synthesized := false }] }

/-!
SynthesizableMinHeap (catalog/db.py lines 469-560), instantiated at the
integer element domain.
-/
structure SMinHeap where
  heap : List (Option UntrustedInt)
deriving DecidableEq, Repr

/-- Read a heap slot: Python `self._heap[k]` for an in-range `k`; the
slot itself may hold `None`. -/
def slotAt (hp : List (Option UntrustedInt)) (k : Nat) : Option UntrustedInt :=
  (hp[k]?).getD none

/-- Python `min` of two untrusted ints (comparison delegates to the raw
values; the first argument is returned on ties). -/
def pymin (a b : UntrustedInt) : UntrustedInt :=
  if b.val < a.val then b else a

/-- SynthesizableMinHeap.synthesize (catalog/db.py lines 499-547).  The
bound derivation, the Python-truthiness branch structure and the
unconditional write of `to_python(value)` mirror the source. -/
def mhSynthesize (oracle : List IntC → Option Int) (h : SMinHeap) (index : Int) :
    SMinHeap × Except PyErr Bool :=
  if (h.heap.length : Int) ≤ index ∨ index < 0 then (h, .error .indexError)
  else
    match slotAt h.heap index.toNat with
    | none => (h, .error .unsupportedDomain)
    | some _ =>
      let parentIdx : Int := (index - 1) / 2
      let parentVal : Option UntrustedInt :=
        if 0 ≤ parentIdx then slotAt h.heap parentIdx.toNat else none
      let leftVal : Option UntrustedInt :=
        if 2 * index + 1 < (h.heap.length : Int) then slotAt h.heap (2 * index + 1).toNat
        else none
      let rightVal : Option UntrustedInt :=
        if 2 * index + 2 < (h.heap.length : Int) then slotAt h.heap (2 * index + 2).toNat
        else none
      let upper : Option UntrustedInt :=
        match leftVal with
        | none => rightVal
        | some lv =>
          match rightVal with
          | some rv => some (pymin lv rv)
          | none => some lv
      let csE : Except PyErr (List IntC) :=
        if truthyO parentVal && !truthyO upper then
          (intGtC parentVal).map (fun c => [c])
        else if truthyO upper && !truthyO parentVal then
          (intLtC upper).map (fun c => [c])
        else
          match intLtC upper with
          | .error e => .error e
          | .ok c1 => (intGtC parentVal).map (fun c2 => [c1, c2])
      match csE with
      | .error e => (h, .error e)
      | .ok cs =>
        ({ heap := h.heap.set index.toNat
              ((oracle cs).map (fun n => { val := n, synthesized := true })) }, .ok true)

/-- Min-heap well-formedness of the underlying array (`a[k] <= a[2k+1]`
and `a[k] <= a[2k+2]` whenever those indices exist), on fully occupied
slots. -/
def mhWFB (hp : List (Option UntrustedInt)) : Bool :=
  (List.range hp.length).all fun k =>
    (decide (hp.length ≤ 2 * k + 1) ||
      match slotAt hp k, slotAt hp (2 * k + 1) with
      | some a, some b => decide (a.val ≤ b.val)
      | _, _ => false) &&
    (decide (hp.length ≤ 2 * k + 2) ||
      match slotAt hp k, slotAt hp (2 * k + 2) with
      | some a, some b => decide (a.val ≤ b.val)
      | _, _ => false)

/-- The C4 failing-input heap `[0, 0, 7, 3, 4]` of untrusted ints. -/
def heap00734 : SMinHeap :=
  { heap := [some { val := 0, synthesized := false },
             some { val := 0, synthesized := false },
             some { val := 7, synthesized := false },
             some { val := 3, synthesized := false },
             some { val := 4, synthesized := false }] }

/-!
BinarySearchTree / BiNode (catalog/db.py lines 9-271), instantiated at
the integer domain for both values and keys.  A `BiNode`'s `_val` and
`_key` slots can each hold `None` (`_key` is `None` in value-only trees
and `_val` is set to `None` by a successful keyed synthesis), hence both
are `Option UntrustedInt`.  `nil` is Python `None` in a child slot.
-/
inductive BTree where
  | nil
  | node (val key : Option UntrustedInt) (l r : BTree)
deriving DecidableEq, Repr

/-- The condition `key and key < curr.key or not key and val < curr.val`
of `_insert_node`, with Python short-circuit evaluation: a truthy `key`
is compared with `curr.key` (raising `TypeError` when `curr.key` is
`None`); otherwise `val` is compared with `curr.val`. -/
def bstLtCond (val : UntrustedInt) (key : Option UntrustedInt)
    (cval ckey : Option UntrustedInt) : Except PyErr Bool :=
  if truthyO key then
    match key, ckey with
    | some k, some ck => .ok (decide (k.val < ck.val))
    | some _, none => .error .typeError
    | none, _ => .ok false
  else
    match cval with
    | some cv => .ok (decide (val.val < cv.val))
    | none => .error .typeError

/-- The condition `key and key > curr.key or not key and val > curr.val`
of `_insert_node`, as `bstLtCond`. -/
def bstGtCond (val : UntrustedInt) (key : Option UntrustedInt)
    (cval ckey : Option UntrustedInt) : Except PyErr Bool :=
  if truthyO key then
    match key, ckey with
    | some k, some ck => .ok (decide (ck.val < k.val))
    | some _, none => .error .typeError
    | none, _ => .ok false
  else
    match cval with
    | some cv => .ok (decide (cv.val < val.val))
    | none => .error .typeError

/-- BinarySearchTree._insert_node (catalog/db.py lines 80-97).  The
`False` returned on a duplicate is discarded by every caller, so only
the resulting tree is carried. -/
def insertNode (t : BTree) (val : UntrustedInt) (key : Option UntrustedInt) :
    Except PyErr BTree :=
  match t with
  | .nil => .ok .nil
  | .node cval ckey l r =>
    (bstLtCond val key cval ckey).bind fun cLt =>
      if cLt then
        match l with
        | .nil => .ok (.node cval ckey (.node (some val) key .nil .nil) r)
        | .node a b c d =>
          (insertNode (.node a b c d) val key).map (fun l' => .node cval ckey l' r)
      else
        (bstGtCond val key cval ckey).bind fun cGt =>
          if cGt then
            match r with
            | .nil => .ok (.node cval ckey l (.node (some val) key .nil .nil))
            | .node a b c d =>
              (insertNode (.node a b c d) val key).map (fun r' => .node cval ckey l r')
          else .ok (.node cval ckey l r)

/-- BinarySearchTree.insert (catalog/db.py lines 59-73).  The Python
result is `False` on a keyed/keyless mode rejection and `None`
otherwise (the accept path returns nothing), modelled as
`Option Bool`. -/
def bstInsert (t : BTree) (val : UntrustedInt) (key : Option UntrustedInt) :
    Except PyErr (BTree × Option Bool) :=
  match t with
  | .nil => .ok (.node (some val) key .nil .nil, none)
  | .node rv rk l r =>
    if truthyO rk && !truthyO key then .ok (.node rv rk l r, some false)
    else if !truthyO rk && truthyO key then .ok (.node rv rk l r, some false)
    else (insertNode (.node rv rk l r) val key).map (fun t' => (t', none))

/-- Projection of an insert result to the Python return value (`none`
for an exception). -/
def insertOutcome (r : Except PyErr (BTree × Option Bool)) : Option (Option Bool) :=
  match r with
  | .ok (_, b) => some b
  | .error _ => none

/-- Every node of the tree has a value in its `_val` slot (true of any
tree built by `insert`). -/
def bstWfVal (t : BTree) : Bool :=
  match t with
  | .nil => true
  | .node v _ l r => v.isSome && bstWfVal l && bstWfVal r

/-- BinarySearchTree._max_value_node (lines 164-172): the `(val, key)`
slots of the rightmost node, or `none` for an empty subtree. -/
def bstMaxNode (t : BTree) : Option (Option UntrustedInt × Option UntrustedInt) :=
  match t with
  | .nil => none
  | .node v k _ r =>
    match r with
    | .nil => some (v, k)
    | .node a b c d => bstMaxNode (.node a b c d)

/-- BinarySearchTree._max_value (lines 174-183): Python `False` (no
node) and a `None` slot are both collapsed to `none`; only truthiness
and solver use of the bound are observable downstream, identical for
both. -/
def bstMaxValue (t : BTree) : Option UntrustedInt :=
  match bstMaxNode t with
  | none => none
  | some (v, k) => if truthyO k then k else v

/-- BinarySearchTree._min_value_node (lines 185-194). -/
def bstMinNode (t : BTree) : Option (Option UntrustedInt × Option UntrustedInt) :=
  match t with
  | .nil => none
  | .node v k l _ =>
    match l with
    | .nil => some (v, k)
    | .node a b c d => bstMinNode (.node a b c d)

/-- BinarySearchTree._min_value (lines 196-205). -/
def bstMinValue (t : BTree) : Option UntrustedInt :=
  match bstMinNode t with
  | none => none
  | some (v, k) => if truthyO k then k else v

/-- BinarySearchTree.synthesize (catalog/db.py lines 207-247), applied
to the subtree rooted at the given node; the returned tree is that
subtree after the in-place node update.  `bounded_synthesis`
(catalog/synthesis.py lines 123-143) is inlined at the integer domain:
its two-bounds check passes (both bounds are truthy here), the
`upper_bound <= lower_bound` check raises `ValueError`, and an
unsatisfiable solve returns `None`, which `synthesize` maps to `False`
with no write. -/
def bstSynthesize (oracle : List IntC → Option Int) (t : BTree) :
    Except PyErr (BTree × Bool) :=
  match t with
  | .nil => .error .typeError
  | .node v k l r =>
    let upper := bstMinValue r
    let lower := bstMaxValue l
    match (if truthyO k then k else v) with
    | none => .error .unsupportedDomain
    | some _ =>
      if !truthyO upper || !truthyO lower then
        if truthyO k then
          match k with
          | some kk => .ok (.node none (some { val := kk.val, synthesized := true }) l r, true)
          | none => .error .unsupportedDomain
        else
          match v with
          | some vv => .ok (.node (some { val := vv.val, synthesized := true }) k l r, true)
          | none => .error .unsupportedDomain
      else
        match upper, lower with
        | some ub, some lb =>
          if ub.val ≤ lb.val then .error .valueError
          else
            match oracle [IntC.clt ub.val, IntC.cgt lb.val] with
            | none => .ok (.node v k l r, false)
            | some n =>
              if truthyO k then
                .ok (.node none (some { val := n, synthesized := true }) l r, true)
              else
                .ok (.node (some { val := n, synthesized := true }) k l r, true)
        | _, _ => .error .valueError

/-- Plain (non-synthesized) untrusted int. -/
def uv (n : Int) : UntrustedInt := { val := n, synthesized := false }

/-- The C6 failing-input tree: value-only BST with root 3, left child 0,
right child 7. -/
def bst307 : BTree :=
  .node (some (uv 3)) none
    (.node (some (uv 0)) none .nil .nil)
    (.node (some (uv 7)) none .nil .nil)

/-- A BST whose root was inserted with the falsy key 0 (C10). -/
def bstRootK0 : BTree := .node (some (uv 5)) (some (uv 0)) .nil .nil

/-!
SynthesizableHashTable (catalog/db.py lines 369-466).

The table is generic over the key type `K` and value type `V`; the
external collaborator `custom_hash` (django.core.untrustedtypes) is a
parameter `hash : K → Int`.  Modelled from the spec: `hash()` is a
deterministic, pure function of the raw value only.  The per-domain key
synthesizer of `synthesis` (an `IntSynthesizer`/`StrSynthesizer` with
`eq_constraint(custom_hash, key.__hash__())`, lines 451-462) is
abstracted into an oracle `Int → Option K` mapping the target hash to an
optional model key; soundness of the oracle is exactly the added
equality constraint: any key it produces has the target hash.  Key
slots are `Option K` because a failed solve writes
`to_python(None) = None` into the slot.
-/
structure HashTable (K V : Type) where
  buckets : List (List (Option K × V))
deriving DecidableEq, Repr

/-- Bucket index `key.__hash__() % len(self._hash_table)` (Python `%` on
a positive modulus is the euclidean remainder). -/
def htBucketIdx {K V : Type} (hash : K → Int) (t : HashTable K V) (key : K) : Nat :=
  ((hash key).emod (t.buckets.length : Int)).toNat

/-- Scan of `__getitem__` (lines 401-409): first pair whose key equals
the probe, else `KeyError`.  A `None` key slot never equals a real
key. -/
def bucketGet {K V : Type} [DecidableEq K] (key : K) :
    List (Option K × V) → Except PyErr V
  | [] => .error .keyError
  | (k?, v) :: rest => if k? = some key then .ok v else bucketGet key rest

/-- SynthesizableHashTable.__getitem__. -/
def htGet {K V : Type} [DecidableEq K] (hash : K → Int) (t : HashTable K V) (key : K) :
    Except PyErr V :=
  bucketGet key (t.buckets.getD (htBucketIdx hash t key) [])

/-- The scan of `synthesis` (lines 448-466): replace the first slot whose
key equals the probe by `(newKey, v)` (the value is untouched); `none`
when the key is absent from the bucket. -/
def bucketSynth {K V : Type} [DecidableEq K] (newKey : Option K) (key : K) :
    List (Option K × V) → Option (List (Option K × V))
  | [] => none
  | (k?, v) :: rest =>
    if k? = some key then some ((newKey, v) :: rest)
    else
      match bucketSynth newKey key rest with
      | some rest' => some ((k?, v) :: rest')
      | none => none

/-- SynthesizableHashTable.synthesis (lines 439-466).  The solver is
consulted only when the key is found; since the oracle is pure, passing
its (lazy in Python) result into the scan is observationally
identical. -/
def htSynthesis {K V : Type} [DecidableEq K] (hash : K → Int) (oracle : Int → Option K)
    (t : HashTable K V) (key : K) : HashTable K V × Bool :=
  let b := htBucketIdx hash t key
  match bucketSynth (oracle (hash key)) key (t.buckets.getD b []) with
  | some newBucket => ({ buckets := t.buckets.set b newBucket }, true)
  | none => (t, false)

/-- Soundness of a key-synthesis oracle: any model key it produces has
exactly the requested hash (the `eq_constraint` added to the solver). -/
def hashOracleSound {K : Type} (hash : K → Int) (oracle : Int → Option K) : Prop :=
  ∀ h k', oracle h = some k' → hash k' = h

/-- Candidate-checking key oracle: propose the fixed key `cand`, succeed
only when it has the requested hash.  Sound by construction. -/
def keyTry {K : Type} (hash : K → Int) (cand : K) : Int → Option K :=
  fun h => if hash cand = h then some cand else none

/-- A representative integer `custom_hash` with collisions.  Modelled
from the spec: the hash is an external deterministic pure function of
the raw value; the repository's own test remarks that a "super big
integer key" is needed for the synthesized int to differ from the
original, so the integer hash identifies values congruent modulo a
fixed width — reduction modulo 2^32 is such a function. -/
def hashMod32 (x : Int) : Int := x.emod 4294967296

/-- The C2 counterexample table: bucket 7 holds the colliding keys 7 and
4294967303 = 7 + 2^32 (same `hashMod32`, hence the same bucket). -/
def htC2 : HashTable Int Int :=
  { buckets := (List.replicate 10 ([] : List (Option Int × Int))).set 7
      [(some 7, 100), (some 4294967303, 200)] }

/-- The C2 table after synthesizing the key 4294967303 into 7. -/
def htC2' : HashTable Int Int :=
  { buckets := (List.replicate 10 ([] : List (Option Int × Int))).set 7
      [(some 7, 100), (some 7, 200)] }

/-- Witness table for the amended C2: key 5 with value 77 in bucket 5
under the identity hash. -/
def htW : HashTable Int Int :=
  { buckets := (List.replicate 10 ([] : List (Option Int × Int))).set 5
      [(some 5, 77)] }

/-!
IntSet (catalog/db.py lines 563-740): Redis-style sorted packed integer
set.  `_contents` is a Python list of byte values (ints 0..255), briefly
holding `None` placeholders during `extend`; a slot is therefore
`Option Int`.  Reads of a `None` byte would raise in Python; every read
in the proved theorems is shown to touch only initialized bytes, and the
embedding reads such a byte as 0 (`Option.getD`).  Python's
`int.to_bytes` raises `OverflowError` for out-of-range values; the
embedding reduces modulo the width instead, and every write proved about
is of an in-range value, where the two agree.
-/
structure IntSet where
  encoding : Nat
  length : Nat
  contents : List (Option Int)
deriving DecidableEq, Repr

/-- IntSet._get_encoding (lines 590-598). -/
def IntSet.getEncoding (value : Int) : Nat :=
  if value < -2147483648 ∨ value > 2147483647 then 8
  else if value < -32768 ∨ value > 32767 then 4
  else 2

/-- Signed bound of a `k`-byte encoding: values in `[-encBound k, encBound k)`. -/
def encBound (k : Nat) : Int := 2 ^ (8 * k - 1)

/-- Big-endian byte list (each 0..255) of the `k`-byte value `u`. -/
def natToBytes : Nat → Nat → List Int
  | _, 0 => []
  | u, k + 1 => natToBytes (u / 256) k ++ [((u % 256 : Nat) : Int)]

/-- Python `value.to_bytes(k, byteorder='big', signed=True)` (the
two's-complement big-endian bytes of an in-range value). -/
def toBytes (v : Int) (k : Nat) : List Int := natToBytes (v.emod (2 ^ (8 * k))).toNat k

/-- Big-endian unsigned value of a byte list. -/
def fromBytesU (bs : List Int) : Int := bs.foldl (fun a b => a * 256 + b) 0

/-- Python `int.from_bytes(bs, byteorder='big', signed=True)`. -/
def fromBytesS (bs : List Int) : Int :=
  if 2 * fromBytesU bs ≥ 2 ^ (8 * bs.length) then fromBytesU bs - 2 ^ (8 * bs.length)
  else fromBytesU bs

/-- IntSet.__getitem__ (lines 600-605): decode the slice
`contents[pos*enc : (pos+1)*enc]` (a Python slice truncates at the list
end). -/
def readVal (c : List (Option Int)) (pos enc : Nat) : Int :=
  fromBytesS (((c.drop (pos * enc)).take enc).map (fun ob => ob.getD 0))

/-- Write the bytes `bs` at consecutive positions starting at `p`. -/
def writeRange : List (Option Int) → Nat → List Int → List (Option Int)
  | c, _, [] => c
  | c, p, b :: rest => writeRange (c.set p (some b)) (p + 1) rest

/-- IntSet.__setitem__ (lines 607-614): `byte_arr` is built with
`self._encoding` and the write range uses the `encoding` parameter;
every call site passes `self._encoding` for both, so a single `enc`
parameter is faithful. -/
def setVal (c : List (Option Int)) (pos : Nat) (v : Int) (enc : Nat) : List (Option Int) :=
  writeRange c (pos * enc) (toBytes v enc)

/-- The binary-search loop of IntSet._search (lines 638-652), fused with
the post-loop `value == cur` test: a `break` happens exactly at an exact
hit (returning its `mid_pos`), and a normal exit returns `min_pos` with
`cur ≠ value`.  `(min_pos + max_pos) >> 1` is euclidean division by 2. -/
def searchLoop (c : List (Option Int)) (enc : Nat) (value : Int) (minP maxP : Int) :
    Bool × Int :=
  if h : minP ≤ maxP then
    let mid := (minP + maxP) / 2
    let cur := readVal c mid.toNat enc
    if value > cur then searchLoop c enc value (mid + 1) maxP
    else if value < cur then searchLoop c enc value minP (mid - 1)
    else (true, mid)
  else (false, minP)
termination_by (maxP + 1 - minP).toNat
decreasing_by
  · omega
  · omega

/-- IntSet._search (lines 620-652): `(found, pos)` with `pos` the match
position or the insertion position. -/
def IntSet.search (s : IntSet) (value : Int) : Bool × Int :=
  if s.length = 0 then (false, 0)
  else if value > readVal s.contents (s.length - 1) s.encoding then (false, (s.length : Int))
  else if value < readVal s.contents 0 s.encoding then (false, 0)
  else searchLoop s.contents s.encoding value 0 ((s.length : Int) - 1)

/-- IntSet.find (lines 654-657): Python returns `False` or the 0/1 from
`_search`; both are reported as `Bool` (`0` is falsy). -/
def IntSet.find (s : IntSet) (value : Int) : Bool :=
  decide (IntSet.getEncoding value ≤ s.encoding) && (s.search value).1

/-- Ascending byte-copy loop of `_move_tail` (`for i in range(n):
c[dst+i] = c[src+i]`). -/
def moveAsc : List (Option Int) → Nat → Nat → Nat → List (Option Int)
  | c, _, _, 0 => c
  | c, dst, src, n + 1 => moveAsc (c.set dst (c.getD src none)) (dst + 1) (src + 1) n

/-- Descending byte-copy loop of `_move_tail` (`for i in
range(n-1, -1, -1)`). -/
def moveDesc : List (Option Int) → Nat → Nat → Nat → List (Option Int)
  | c, _, _, 0 => c
  | c, dst, src, n + 1 => moveDesc (c.set (dst + n) (c.getD (src + n) none)) dst src n

/-- IntSet._move_tail (lines 683-696), with the owning set's `_length`
and `_encoding` passed explicitly. -/
def moveTail (len enc : Nat) (c : List (Option Int)) (fromPos toPos : Nat) :
    List (Option Int) :=
  let n := (len - fromPos) * enc
  let src := enc * fromPos
  let dst := enc * toPos
  if src > dst then moveAsc c dst src n
  else if src < dst then moveDesc c dst src n
  else c

/-- One iteration of the back-to-front re-encoding loop of
`_upgrade_and_add`: `self.__setitem__(i + prepend,
self.__getitem__(i, old_encoding), self._encoding)`. -/
def upStep (oldE newE prepend i : Nat) (c : List (Option Int)) : List (Option Int) :=
  writeRange c ((i + prepend) * newE) (toBytes (readVal c i oldE) newE)

/-- The back-to-front loop `for i in range(self._length-1, -1, -1)` of
`_upgrade_and_add`: `upLoop _ _ _ i c` performs the iterations for
indices `i-1, i-2, ..., 0` after starting with index `i-1`; the full
loop is `upLoop _ _ _ length c`. -/
def upLoop (oldE newE prepend : Nat) : Nat → List (Option Int) → List (Option Int)
  | 0, c => c
  | i + 1, c => upLoop oldE newE prepend i (upStep oldE newE prepend i c)

/-- IntSet._upgrade_and_add (lines 659-681). -/
def IntSet.upgradeAndAdd (s : IntSet) (value : Int) : IntSet :=
  let oldE := s.encoding
  let newE := IntSet.getEncoding value
  let prepend : Nat := if value < 0 then 1 else 0
  let c0 := s.contents ++ List.replicate (s.length * (newE - oldE) + newE) none
  let c1 := upLoop oldE newE prepend s.length c0
  let c2 := if value < 0 then setVal c1 0 value newE else setVal c1 s.length value newE
  { encoding := newE, length := s.length + 1, contents := c2 }

/-- IntSet.add (lines 698-717). -/
def IntSet.add (s : IntSet) (value : Int) : IntSet :=
  if s.encoding < IntSet.getEncoding value then s.upgradeAndAdd value
  else
    let sr := s.search value
    if sr.1 then s
    else
      let c := s.contents ++ List.replicate s.encoding none
      let c' := if sr.2 < (s.length : Int) then moveTail s.length s.encoding c sr.2.toNat (sr.2.toNat + 1)
                else c
      { encoding := s.encoding, length := s.length + 1,
        contents := setVal c' sr.2.toNat value s.encoding }

/-- IntSet.delete (lines 719-732): overwrite with the tail, pop the last
`encoding` bytes, decrement the length; the encoding is never touched. -/
def IntSet.delete (s : IntSet) (value : Int) : IntSet :=
  if IntSet.getEncoding value ≤ s.encoding then
    let sr := s.search value
    if sr.1 then
      let c := if sr.2 < (s.length : Int) - 1 then
                 moveTail s.length s.encoding s.contents (sr.2.toNat + 1) sr.2.toNat
               else s.contents
      { encoding := s.encoding, length := s.length - 1,
        contents := c.take (c.length - s.encoding) }
    else s
  else s

/-- The decoded member at position `i`. -/
def IntSet.memberAt (s : IntSet) (i : Nat) : Int := readVal s.contents i s.encoding

/-- Well-formedness of an IntSet reachable through `add`/`delete`: a
legal encoding; `_contents` holds exactly `length * encoding` bytes, all
initialized and in `0..255`; every member fits the current encoding; and
members are strictly increasing. -/
def IntSet.wfB (s : IntSet) : Bool :=
  (s.encoding == 2 || s.encoding == 4 || s.encoding == 8)
  && s.contents.length == s.length * s.encoding
  && s.contents.all (fun ob =>
      match ob with
      | some b => decide (0 ≤ b) && decide (b < 256)
      | none => false)
  && (List.range s.length).all (fun i =>
      decide (-encBound s.encoding ≤ s.memberAt i) && decide (s.memberAt i < encBound s.encoding))
  && (List.range s.length).all (fun i =>
      (i + 1 == s.length) || decide (s.memberAt i < s.memberAt (i + 1)))

/-- Witness IntSet: the 16-bit-encoded set containing only the value 5
(bytes `[0, 5]`). -/
def intSet5 : IntSet :=
  { encoding := 2, length := 1, contents := [some 0, some 5] }

/-!
StrSynthesizer (catalog/synthesis.py lines 197-463), over the default
charset `printable_ascii_chars()` — the codes 0x20 (32, space) to
0x7E (126, tilde) in increasing order, the only charset the repository
ever constructs.  For the default charset, position in the charset
equals code minus 32, so charset-position comparisons coincide with
code comparisons.  Strings are their code lists.  The regular-expression
templates built by `_lt_constraint`/`_gt_constraint` are embedded as a
small `Template` type with an executable matcher; the solver oracle
returns a string matching every accumulated constraint.
-/

/-- Membership in the default charset (printable ASCII). -/
def inCS (c : Nat) : Bool := decide (32 ≤ c) && decide (c ≤ 126)

/-- The three regular-expression template shapes built by the string
synthesizer: `Concat(Re(s), Re(""))` (exactly `s`);
`Concat(Re(p), Union(chars in lo..hi), Star(charset))`; and
`Concat(Re(p), Plus(charset))`. -/
inductive Template where
  | exactT (s : List Nat)
  | midT (p : List Nat) (lo hi : Nat)
  | extT (p : List Nat)
deriving DecidableEq, Repr

/-- Executable membership of a string in a template's language. -/
def matchesB : Template → List Nat → Bool
  | .exactT s, m => m == s
  | .midT p lo hi, m =>
    m.take p.length == p && decide (p.length < m.length)
      && (decide (lo ≤ m.getD p.length 0) && decide (m.getD p.length 0 ≤ hi))
      && (m.drop (p.length + 1)).all inCS
  | .extT p, m =>
    m.take p.length == p && decide (p.length < m.length) && (m.drop p.length).all inCS

/-- A string-solver constraint: a template membership (`InRe`) or the
literal `False` added by `lt_constraint` on an empty bound. -/
inductive StrC where
  | tmpl (t : Template)
  | cfalse
deriving DecidableEq, Repr

/-- Semantics of one string constraint at a candidate model string. -/
def strHoldsB (c : StrC) (m : List Nat) : Bool :=
  match c with
  | .tmpl t => matchesB t m
  | .cfalse => false

/-- A string solver oracle is sound when every model string it produces
satisfies every accumulated constraint. -/
def strOracleSound (oracle : List StrC → Option (List Nat)) : Prop :=
  ∀ cs m, oracle cs = some m → ∀ c ∈ cs, strHoldsB c m = true

/-- Candidate-checking string oracle, sound by construction. -/
def strTry (w : List Nat) (cs : List StrC) : Option (List Nat) :=
  if cs.all (fun c => strHoldsB c w) then some w else none

/-- The offset-advancing scan of `StrSynthesizer._lt_constraint`
(catalog/synthesis.py lines 281-327): advance past charset-minimum
characters; raise `ValueError` at a character outside the charset;
otherwise one smaller character at the offset followed by anything; if
the bound runs out, exactly the bound minus its last character. -/
def ltScan (u : List Nat) (o : Nat) : Except PyErr Template :=
  if _h : o < u.length then
    if u.getD o 0 < 32 ∨ 126 < u.getD o 0 then .error .valueError
    else if u.getD o 0 = 32 then ltScan u (o + 1)
    else .ok (.midT (u.take o) 32 (u.getD o 0 - 1))
  else .ok (.exactT (u.take (u.length - 1)))
termination_by u.length - o

/-- The scan of `StrSynthesizer._gt_constraint` (lines 356-406): advance
past charset-maximum characters; a character outside the charset makes
`_gt_constraint` RETURN (not raise) a `ValueError` object, which then
blows up inside Z3's `InRe` — an error nonetheless, tagged `z3Error`;
otherwise one larger character at the offset followed by anything; if
the bound runs out, the full bound followed by at least one
character. -/
def gtScan (l : List Nat) (o : Nat) : Except PyErr Template :=
  if _h : o < l.length then
    if l.getD o 0 < 32 ∨ 126 < l.getD o 0 then .error .z3Error
    else if l.getD o 0 = 126 then gtScan l (o + 1)
    else .ok (.midT (l.take o) (l.getD o 0 + 1) 126)
  else .ok (.extT l)
termination_by l.length - o

/-- StrSynthesizer.lt_constraint (lines 246-272): an empty bound adds the
constraint `False`; otherwise the scanned template. -/
def ltCs (u : List Nat) (o : Nat) : Except PyErr (List StrC) :=
  if u.isEmpty then .ok [.cfalse]
  else (ltScan u o).map (fun t => [.tmpl t])

/-- StrSynthesizer.gt_constraint (lines 329-347 and 356-406): an empty
bound yields the any-non-empty-string template. -/
def gtCs (l : List Nat) (o : Nat) : Except PyErr (List StrC) :=
  if l.isEmpty then .ok [.tmpl (.extT [])]
  else (gtScan l o).map (fun t => [.tmpl t])

/-- Python string `<` on code lists (lexicographic by code point). -/
def strLtB : List Nat → List Nat → Bool
  | _, [] => false
  | [], _ :: _ => true
  | a :: s, b :: t => if a < b then true else if b < a then false else strLtB s t

/-- Python string `<=`. -/
def strLeB (a b : List Nat) : Bool := strLtB a b || a == b

/-- The common-prefix position computed by the loop of
`StrSynthesizer.bounded_constraints` (lines 425-441). -/
def commonPrefixLen : List Nat → List Nat → Nat
  | a :: s, b :: t => if a = b then commonPrefixLen s t + 1 else 0
  | _, _ => 0

/-- A one-sided less-than synthesis: `lt_constraint(b)` followed by
`to_python(self.value)`, as run by the repository's own module test. -/
def strLtSynth (oracle : List StrC → Option (List Nat)) (b : List Nat) :
    Except PyErr (Option UntrustedStr) :=
  match ltCs b 0 with
  | .error e => .error e
  | .ok cs => .ok ((oracle cs).map (fun m => { data := m, synthesized := true }))

/-- Synthesizer.bounded_synthesis (catalog/synthesis.py lines 123-143)
at the string domain: the Python-falsiness check on both bounds, the
`upper_bound <= lower_bound` check, then
`StrSynthesizer.bounded_constraints` (a common offset for the two
one-sided templates) and the model query. -/
def strBoundedSynthesis (oracle : List StrC → Option (List Nat)) (u l : Option (List Nat)) :
    Except PyErr (Option UntrustedStr) :=
  match u, l with
  | some ub, some lb =>
    if ub.isEmpty || lb.isEmpty then .error .valueError
    else if strLeB ub lb then .error .valueError
    else
      match ltCs ub (commonPrefixLen ub lb) with
      | .error e => .error e
      | .ok cs1 =>
        match gtCs lb (commonPrefixLen ub lb) with
        | .error e => .error e
        | .ok cs2 =>
          .ok ((oracle (cs1 ++ cs2)).map (fun m => { data := m, synthesized := true }))
  | _, _ => .error .valueError

/-- Spec-side characterization of when the lt-scan hits a character
outside the alphabet: the first non-minimum character at or after the
offset exists and lies outside the charset. -/
def ltBad (u : List Nat) (o : Nat) : Bool :=
  match (u.drop o).dropWhile (fun c => c == 32) with
  | [] => false
  | c :: _ => decide (c < 32) || decide (126 < c)

/-- Spec-side characterization for the gt-scan (maximum character 126). -/
def gtBad (l : List Nat) (o : Nat) : Bool :=
  match (l.drop o).dropWhile (fun c => c == 126) with
  | [] => false
  | c :: _ => decide (c < 32) || decide (126 < c)

/-- Spec-side characterization of the string requests on which
`bounded_synthesis` raises: a missing or empty (falsy) bound, upper not
above lower, or a scan meeting an out-of-alphabet character. -/
def strBoundedInvalid (u l : Option (List Nat)) : Bool :=
  match u, l with
  | some ub, some lb =>
    ub.isEmpty || lb.isEmpty || strLeB ub lb
      || ltBad ub (commonPrefixLen ub lb) || gtBad lb (commonPrefixLen ub lb)
  | _, _ => true

/-- Synthesizer.bounded_synthesis at the integer domain
(`IntSynthesizer`): the Python-falsiness check treats the bound 0 as
missing. -/
def intBoundedSynthesis (oracle : List IntC → Option Int) (u l : Option Int) :
    Except PyErr (Option UntrustedInt) :=
  match u, l with
  | some a, some b =>
    if a = 0 ∨ b = 0 then .error .valueError
    else if a ≤ b then .error .valueError
    else .ok ((oracle [IntC.clt a, IntC.cgt b]).map
        (fun n => { val := n, synthesized := true }))
  | _, _ => .error .valueError

/-- Spec-side characterization of the integer (and bit-vector) requests
on which `bounded_synthesis` raises: a missing or zero (falsy) bound, or
upper not above lower. -/
def intBoundedInvalid (u l : Option Int) : Bool :=
  match u, l with
  | some a, some b => a == 0 || b == 0 || decide (a ≤ b)
  | _, _ => true

/-!
BitVecSynthesizer (catalog/synthesis.py lines 176-194): a Z3 bit-vector
of `bits` bits (32 by default).  Z3's Python `<`/`>` on bit-vectors are
the signed comparisons, a Python integer bound is coerced modulo
`2 ^ bits`, and `to_python` uses `as_long()`, the UNSIGNED
interpretation of the model value.
-/

/-- Signed interpretation of a `bits`-wide machine word. -/
def sview (bits : Nat) (n : Nat) : Int :=
  if (n : Int) < 2 ^ (bits - 1) then (n : Int) else (n : Int) - 2 ^ bits

/-- Coercion of a Python integer bound into a `bits`-wide word. -/
def bvCoe (bits : Nat) (b : Int) : Nat := (b.emod (2 ^ bits)).toNat

/-- Bit-vector solver constraints: signed `<` and `>` against a coerced
bound. -/
inductive BVC where
  | bclt (b : Int)
  | bcgt (b : Int)
deriving DecidableEq, Repr

/-- Semantics of one bit-vector constraint at a candidate model word. -/
def bvHoldsB (bits : Nat) (c : BVC) (n : Nat) : Bool :=
  match c with
  | .bclt b => decide (sview bits n < sview bits (bvCoe bits b))
  | .bcgt b => decide (sview bits (bvCoe bits b) < sview bits n)

/-- Soundness of a bit-vector oracle: model words are in range and
satisfy every accumulated constraint. -/
def bvOracleSound (bits : Nat) (oracle : List BVC → Option Nat) : Prop :=
  ∀ cs n, oracle cs = some n → n < 2 ^ bits ∧ ∀ c ∈ cs, bvHoldsB bits c n = true

/-- Candidate-checking bit-vector oracle, sound by construction. -/
def bvTry (bits : Nat) (w : Nat) (cs : List BVC) : Option Nat :=
  if decide (w < 2 ^ bits) && cs.all (fun c => bvHoldsB bits c w) then some w else none

/-- Synthesizer.bounded_synthesis at the bit-vector domain: the same
falsiness and ordering checks on the PYTHON integer bounds, then the
signed constraints; `to_python` returns `as_long()`, the unsigned value
of the model word. -/
def bvBoundedSynthesis (oracle : List BVC → Option Nat) (u l : Option Int) :
    Except PyErr (Option UntrustedInt) :=
  match u, l with
  | some a, some b =>
    if a = 0 ∨ b = 0 then .error .valueError
    else if a ≤ b then .error .valueError
    else .ok ((oracle [BVC.bclt a, BVC.bcgt b]).map
        (fun n => { val := (n : Int), synthesized := true }))
  | _, _ => .error .valueError

/-!
StrSynthesizer.eq_constraint (catalog/synthesis.py lines 408-423): the
string is a fixed array of DEFAULT_MAX_CHAR_LENGTH = 50 character-code
integers `x0 .. x49`; each is 0 (the end-of-string sentinel) or a
printable code 32..126; the well-formedness constraints are
`If(chars[i+1] == 0, chars[i] == 0, True)` for i < 49; and
`func(chars) == value`.
-/

/-- The per-character range constraint `Or(char == 0, And(char >= 32,
char <= 126))`. -/
def charRangeOK (c : Int) : Bool :=
  c == 0 || (decide ((32 : Int) ≤ c) && decide (c ≤ 126))

/-- The well-formedness constraints added by `eq_constraint`: for every
`i < 49`, if `chars[i+1] == 0` then `chars[i] == 0`. -/
def eqWfOK (xs : List Int) : Bool :=
  (List.range 49).all (fun i => (xs.getD (i + 1) 0 != 0) || (xs.getD i 0 == 0))

/-- The full constraint set of `eq_constraint` at a candidate character
array. -/
def strEqSatB (f : List Int → Int) (tgt : Int) (xs : List Int) : Bool :=
  xs.length == 50 && xs.all charRangeOK && eqWfOK xs && (f xs == tgt)

/-- A representative hash-style function over the character codes. -/
def sumChars (xs : List Int) : Int := xs.foldl (fun a b => a + b) 0

/-- The claim's reading of well-formedness, stated one step at a time:
the sentinel propagates FORWARD (a zero at position i forces a zero at
position i+1). -/
def specWfFwd (xs : List Int) : Bool :=
  (List.range 49).all (fun i => (xs.getD i 0 != 0) || (xs.getD (i + 1) 0 == 0))

/-- C8 counterexample array: 49 sentinel zeros followed by the code 65
(`A`) — accepted by the code's constraints, zeros do not propagate
forward. -/
def xsC8 : List Int := List.replicate 49 0 ++ [65]

/-- C8 witness array: 48 zeros then codes 65 and 66. -/
def xsC8w : List Int := List.replicate 48 0 ++ [65, 66]

/-! Theorems below; all definitions above this line. -/

/-- CLAIM C1 (code bug, failing-input evaluation).  Spec section 7 and the
method's own docstring ("The synthesized value must ensure that the list
is still sorted") require no mutation when synthesis fails, but on the
sorted list `[5, 5, 5]` the call `synthesis(1)` builds the constraints
`var < 5` and `var > 5` — unsatisfiable, so any sound solver reports no
model (second conjunct) — and then writes `to_python(None) = None` into
slot 1 and returns `True`: the state is mutated on an unsatisfiable
synthesis. -/
theorem c1_failing_eval :
    slSynthesis (fun _ => none) l555 1 =
      ({ data := [some { val := 5, synthesized := false }, none,
                  some { val := 5, synthesized := false }] }, .ok true)
    ∧ ∀ v : Int, (intHoldsB (IntC.clt 5) v && intHoldsB (IntC.cgt 5) v) = false := by
  refine ⟨rfl, ?_⟩
  intro v
  simp only [intHoldsB, Bool.and_eq_false_iff, decide_eq_false_iff_not, not_lt]
  omega

/-- CLAIM C9 (confirmed).  On a SynthesizableSortedList holding exactly one
element, `synthesis(0)` passes the explicit range check (0 is in range),
then the `index == 0` branch evaluates `self.__getitem__(index + 1)`,
which raises `IndexError`; the list is left unchanged.  This holds for
every solver oracle and every stored element. -/
theorem c9_single_element_index_error :
    ∀ (oracle : List IntC → Option Int) (v : UntrustedInt),
      slSynthesis oracle { data := [some v] } 0 =
        ({ data := [some v] }, .error .indexError) := by
  intro oracle v
  rfl

/-- CLAIM C4 (code bug, failing-input evaluation).  On the valid min-heap
`[0, 0, 7, 3, 4]` (first conjunct), `synthesize(1)` derives the lower
bound from the parent `heap[0] = 0`; because `0` is Python-falsy, the
branch `elif upper_bound and not lower_bound` fires and only `var < 3`
is ever constrained.  The value `-5` satisfies every accumulated
constraint (third conjunct), so a sound solver may return it; the code
writes it and returns `True`, leaving `heap[0] = 0 > heap[1] = -5`
(fourth conjunct) — the parent inequality required by the claim and by
the method's docstring is violated after a successful synthesis. -/
theorem c4_failing_eval :
    mhWFB heap00734.heap = true
    ∧ mhSynthesize (intTry (-5)) heap00734 1 =
        ({ heap := [some { val := 0, synthesized := false },
                    some { val := -5, synthesized := true },
                    some { val := 7, synthesized := false },
                    some { val := 3, synthesized := false },
                    some { val := 4, synthesized := false }] }, .ok true)
    ∧ intHoldsB (IntC.clt 3) (-5) = true
    ∧ decide ((0 : Int) ≤ -5) = false := by
  exact ⟨by decide, rfl, by decide, by decide⟩

/-- Mapping over an `Except` preserves success. -/
theorem isOkE_map {ε α β : Type} (f : α → β) (x : Except ε α) :
    isOkE (x.map f) = isOkE x := by
  cases x <;> rfl

/-- `_insert_node` raises no exception when the supplied key is falsy
(the comparisons then run on the `_val` slots, which are occupied in a
well-formed tree). -/
theorem insertNode_isOk (t : BTree) (w : UntrustedInt) (k : Option UntrustedInt)
    (hk : truthyO k = false) (hwf : bstWfVal t = true) :
    isOkE (insertNode t w k) = true := by
  induction t with
  | nil => rfl
  | node cval ckey l r ihl ihr =>
    simp only [bstWfVal, Bool.and_eq_true, Option.isSome_iff_exists] at hwf
    obtain ⟨⟨⟨cv, hcv⟩, hwfl⟩, hwfr⟩ := hwf
    subst hcv
    have hcond : bstLtCond w k (some cv) ckey = .ok (decide (w.val < cv.val)) := by
      simp [bstLtCond, hk]
    have hcond2 : bstGtCond w k (some cv) ckey = .ok (decide (cv.val < w.val)) := by
      simp [bstGtCond, hk]
    rw [insertNode.eq_def]
    simp only [hcond, Except.bind]
    rcases hlt : decide (w.val < cv.val) with _ | _
    · rw [hcond2]
      simp only [Except.bind]
      rcases hgt : decide (cv.val < w.val) with _ | _
      · rfl
      · simp only [if_true]
        cases r with
        | nil => rfl
        | node a b c d => simpa [isOkE_map] using ihr hwfr
    · simp only [if_true]
      cases l with
      | nil => rfl
      | node a b c d => simpa [isOkE_map] using ihl hwfl

/-- CLAIM C6 (code bug, failing-input evaluation).  In the value-only BST
with root 3, left child 0 and right child 7, both subtrees are non-empty
— the left maximum is 0 and the right minimum is 7 (first two
conjuncts) — so the claim (and the method's docstring, "Only performs
bounded value synthesis if both upper and lower bound exist") requires
bounded synthesis with bounds (0, 7), for which the solver has models
(fourth conjunct, value 1).  The code instead treats the Python-falsy
bound 0 as missing and takes the simple-synthesis path, re-wrapping the
root value 3 with the synthesized flag (third conjunct: the result
value is 3, not the solver's value 1). -/
theorem c6_failing_eval :
    bstMaxValue (.node (some (uv 0)) none .nil .nil) = some (uv 0)
    ∧ bstMinValue (.node (some (uv 7)) none .nil .nil) = some (uv 7)
    ∧ bstSynthesize (intTry 1) bst307 =
        .ok (.node (some { val := 3, synthesized := true }) none
               (.node (some (uv 0)) none .nil .nil)
               (.node (some (uv 7)) none .nil .nil), true)
    ∧ (intHoldsB (IntC.clt 7) 1 && intHoldsB (IntC.cgt 0) 1) = true := by
  exact ⟨rfl, rfl, rfl, by decide⟩

/-- CLAIM C10 counterexample.  The claim asserts that on a tree whose root
was inserted with a falsy key, every subsequent insert supplying a key
returns `False`.  Supplying the falsy key 0 to such a tree is accepted:
the insert proceeds by value comparison, attaches a left child and
returns `None` (not `False`). -/
theorem c10_counterexample :
    bstInsert bstRootK0 (uv 3) (some (uv 0)) =
      .ok (.node (some (uv 5)) (some (uv 0))
             (.node (some (uv 3)) (some (uv 0)) .nil .nil) .nil, none)
    ∧ ((some false : Option Bool) == none) = false := by
  exact ⟨rfl, by decide⟩

/-- CLAIM C10 as amended.  For every BST whose root holds the falsy key 0:
`has_key()` reports no key, so an insert supplying a truthy key is
rejected with `False`; an insert supplying no key is accepted (result
`None`, first disjunct of the mode check fails); and an insert supplying
a falsy key is likewise accepted and proceeds by value comparison. -/
theorem c10_amended (v0 k0 : UntrustedInt) (l r : BTree) (w k' : UntrustedInt)
    (hk0 : k0.val = 0) :
    (k'.val ≠ 0 → bstInsert (.node (some v0) (some k0) l r) w (some k') =
        .ok (.node (some v0) (some k0) l r, some false))
    ∧ (bstWfVal (.node (some v0) (some k0) l r) = true →
        insertOutcome (bstInsert (.node (some v0) (some k0) l r) w none) = some none)
    ∧ (k'.val = 0 → bstWfVal (.node (some v0) (some k0) l r) = true →
        insertOutcome (bstInsert (.node (some v0) (some k0) l r) w (some k')) = some none) := by
  refine ⟨?_, ?_, ?_⟩
  · intro hk'
    simp [bstInsert, truthyO, hk0, hk']
  · intro hwf
    have h := insertNode_isOk (.node (some v0) (some k0) l r) w none rfl hwf
    simp only [bstInsert, truthyO, hk0]
    rcases hins : insertNode (.node (some v0) (some k0) l r) w none with e | t'
    · rw [hins] at h; exact absurd h (by simp [isOkE])
    · simp [hins, insertOutcome, Except.map]
  · intro hk' hwf
    have hfalsy : truthyO (some k') = false := by simp [truthyO, hk']
    have h := insertNode_isOk (.node (some v0) (some k0) l r) w (some k') hfalsy hwf
    simp only [bstInsert, truthyO, hk0, hk']
    rcases hins : insertNode (.node (some v0) (some k0) l r) w (some k') with e | t'
    · rw [hins] at h; exact absurd h (by simp [isOkE])
    · simp [hins, insertOutcome, Except.map]

/-- Witness for `c10_amended` at the concrete tree `bstRootK0` (root value
5, key 0): a truthy-key insert is rejected, a keyless insert and a
falsy-key insert are accepted. -/
theorem c10_amended_witness :
    bstInsert bstRootK0 (uv 3) (some (uv 9)) = .ok (bstRootK0, some false)
    ∧ insertOutcome (bstInsert bstRootK0 (uv 3) none) = some none
    ∧ insertOutcome (bstInsert bstRootK0 (uv 3) (some (uv 0))) = some none := by
  refine ⟨(c10_amended (uv 5) (uv 0) .nil .nil (uv 3) (uv 9) rfl).1 (by decide),
          (c10_amended (uv 5) (uv 0) .nil .nil (uv 3) (uv 9) rfl).2.1 (by decide),
          (c10_amended (uv 5) (uv 0) .nil .nil (uv 3) (uv 0) rfl).2.2 (by decide) (by decide)⟩

/-- keyTry is a sound key-synthesis oracle for its hash. -/
theorem keyTry_sound {K : Type} (hash : K → Int) (cand : K) :
    hashOracleSound hash (keyTry hash cand) := by
  intro h k' hk
  simp only [keyTry] at hk
  split at hk
  · cases hk with
    | refl => assumption
  · cases hk

/-- The synthesis scan replaces the first slot matching the probed key,
leaving the prefix and the value untouched. -/
theorem bucketSynth_found {K V : Type} [DecidableEq K] (nk : Option K) (key : K) (v : V)
    (post : List (Option K × V)) :
    ∀ pre, (∀ e ∈ pre, e.1 ≠ some key) →
      bucketSynth nk key (pre ++ (some key, v) :: post) = some (pre ++ ((nk, v) :: post)) := by
  intro pre
  induction pre with
  | nil => intro _; simp [bucketSynth]
  | cons e pre' ih =>
    intro hpre
    obtain ⟨k?, w⟩ := e
    have hne : k? ≠ some key := hpre (k?, w) (List.mem_cons_self _ _)
    simp only [List.cons_append, bucketSynth, if_neg hne]
    rw [List.append_eq, ih (fun e he => hpre e (List.mem_cons_of_mem _ he))]

/-- The synthesis scan reports no match on a bucket free of the probed
key. -/
theorem bucketSynth_absent {K V : Type} [DecidableEq K] (nk : Option K) (key : K) :
    ∀ bucket : List (Option K × V), (∀ e ∈ bucket, e.1 ≠ some key) →
      bucketSynth nk key bucket = none := by
  intro bucket
  induction bucket with
  | nil => intro _; rfl
  | cons e rest ih =>
    intro hb
    obtain ⟨k?, w⟩ := e
    have hne : k? ≠ some key := hb (k?, w) (List.mem_cons_self _ _)
    simp only [bucketSynth, if_neg hne]
    rw [ih (fun e he => hb e (List.mem_cons_of_mem _ he))]

/-- The get scan returns the value of the first slot matching the probed
key. -/
theorem bucketGet_found {K V : Type} [DecidableEq K] (key : K) (v : V)
    (post : List (Option K × V)) :
    ∀ pre, (∀ e ∈ pre, e.1 ≠ some key) →
      bucketGet key (pre ++ (some key, v) :: post) = .ok v := by
  intro pre
  induction pre with
  | nil => intro _; simp [bucketGet]
  | cons e pre' ih =>
    intro hpre
    obtain ⟨k?, w⟩ := e
    have hne : k? ≠ some key := hpre (k?, w) (List.mem_cons_self _ _)
    simp only [List.cons_append, bucketGet, if_neg hne]
    exact ih (fun e he => hpre e (List.mem_cons_of_mem _ he))

/-- CLAIM C2 counterexample.  With the spec-modelled integer
`custom_hash = hashMod32` (reduction modulo 2^32), the table `htC2`
holds the colliding keys 7 and 4294967303 in bucket 7.  Synthesizing
the key 4294967303 may soundly produce the key 7 (first conjunct: the
hashes agree, so the solver's equality constraint is satisfied by 7);
the call succeeds and overwrites the slot in place (second conjunct),
but a subsequent `get` of the new key 7 returns 100 — the value of the
EARLIER slot in the bucket — not the value 200 associated with the
synthesized slot (third and fourth conjuncts), refuting the claim's
"a subsequent get of the new key returns that value". -/
theorem c2_counterexample :
    hashMod32 7 = hashMod32 4294967303
    ∧ htSynthesis hashMod32 (keyTry hashMod32 7) htC2 4294967303 = (htC2', true)
    ∧ htGet hashMod32 htC2' 7 = .ok 100
    ∧ ((100 : Int) == 200) = false := by
  exact ⟨by decide, by rfl, by rfl, by decide⟩

/-- CLAIM C2 as amended.  For every hash table, every key present in it
(at the first matching slot of its bucket) and every sound key-synthesis
oracle that produces a model key: the call succeeds, the synthesized key
occupies the same bucket slot with the value unchanged, the new key's
hash equals the old key's hash, and a subsequent get of the new key
returns that value PROVIDED no earlier slot of the bucket holds a key
equal to the synthesized key (a hash collision can otherwise shadow the
slot on lookup).  For every key not present in its bucket, synthesis
returns False and leaves the table unchanged. -/
theorem c2_amended :
    (∀ (K V : Type) [DecidableEq K] (hash : K → Int) (oracle : Int → Option K)
        (t : HashTable K V) (key k' : K) (v : V) (pre post : List (Option K × V)),
      hashOracleSound hash oracle →
      t.buckets.getD (htBucketIdx hash t key) [] = pre ++ (some key, v) :: post →
      (∀ e ∈ pre, e.1 ≠ some key) →
      oracle (hash key) = some k' →
      (htSynthesis hash oracle t key =
          ({ buckets := t.buckets.set (htBucketIdx hash t key) (pre ++ ((some k', v) :: post)) },
            true)
        ∧ hash k' = hash key
        ∧ ((∀ e ∈ pre, e.1 ≠ some k') →
            htGet hash
              { buckets := t.buckets.set (htBucketIdx hash t key)
                  (pre ++ ((some k', v) :: post)) } k' = .ok v)))
    ∧ (∀ (K V : Type) [DecidableEq K] (hash : K → Int) (oracle : Int → Option K)
        (t : HashTable K V) (key : K),
      (∀ e ∈ t.buckets.getD (htBucketIdx hash t key) [], e.1 ≠ some key) →
      htSynthesis hash oracle t key = (t, false)) := by
  constructor
  · intro K V instK hash oracle t key k' v pre post hsound hbucket hpre horacle
    have hhash : hash k' = hash key := hsound (hash key) k' horacle
    have hb : htBucketIdx hash t key < t.buckets.length := by
      by_contra hge
      push_neg at hge
      rw [List.getD_eq_default _ _ hge] at hbucket
      exact absurd hbucket.symm (by simp)
    have hsynth : htSynthesis hash oracle t key =
        ({ buckets := t.buckets.set (htBucketIdx hash t key) (pre ++ ((some k', v) :: post)) },
          true) := by
      simp only [htSynthesis]
      rw [hbucket, horacle, bucketSynth_found (some k') key v post pre hpre]
    refine ⟨hsynth, hhash, ?_⟩
    intro hpre'
    have hidx : htBucketIdx hash
        { buckets := t.buckets.set (htBucketIdx hash t key) (pre ++ ((some k', v) :: post)) } k'
        = htBucketIdx hash t key := by
      unfold htBucketIdx
      rw [hhash]
      simp only [List.length_set]
    unfold htGet
    rw [hidx]
    have hget : (t.buckets.set (htBucketIdx hash t key)
        (pre ++ ((some k', v) :: post))).getD (htBucketIdx hash t key) []
        = pre ++ ((some k', v) :: post) := by
      rw [List.getD_eq_getElem?_getD, List.getElem?_set]
      simp [hb]
    rw [hget]
    exact bucketGet_found k' v post pre hpre'
  · intro K V instK hash oracle t key habsent
    simp only [htSynthesis]
    rw [bucketSynth_absent _ key _ habsent]

/-- Witness for `c2_amended`: the identity-hash table `htW` with key 5 and
value 77 in bucket 5; synthesizing the present key 5 (the sound oracle
proposes 5 itself) succeeds in place and the new key reads back 77;
synthesizing the absent key 3 returns False and leaves the table
unchanged. -/
theorem c2_amended_witness :
    htSynthesis (fun x => x) (keyTry (fun x => x) 5) htW 5 = (htW, true)
    ∧ htGet (fun x => x) htW 5 = .ok 77
    ∧ htSynthesis (fun x => x) (keyTry (fun x => x) 5) htW 3 = (htW, false) := by
  have h := c2_amended.1 Int Int (fun x => x) (keyTry (fun x => x) 5) htW 5 5 77 [] []
    (keyTry_sound (fun x => x) 5) (by rfl) (by simp) (by rfl)
  have habs := c2_amended.2 Int Int (fun x => x) (keyTry (fun x => x) 5) htW 3 (by decide)
  refine ⟨?_, ?_, habs⟩
  · have h1 := h.1
    rw [h1]
    rfl
  · have h3 := h.2.2 (by simp)
    have : ({ buckets := htW.buckets.set (htBucketIdx (fun x => x) htW 5) ([] ++ ((some 5, 77) :: [])) } : HashTable Int Int) = htW := by rfl
    rw [this] at h3
    exact h3

/-- natToBytes produces exactly `k` bytes. -/
theorem natToBytes_length : ∀ (k u : Nat), (natToBytes u k).length = k := by
  intro k
  induction k with
  | zero => intro u; rfl
  | succ k ih => intro u; simp [natToBytes, ih]

/-- Every byte produced by natToBytes is in `0..255`. -/
theorem natToBytes_mem : ∀ (k u : Nat), ∀ b ∈ natToBytes u k, 0 ≤ b ∧ b < 256 := by
  intro k
  induction k with
  | zero => intro u b hb; cases hb
  | succ k ih =>
    intro u b hb
    simp only [natToBytes, List.mem_append, List.mem_singleton] at hb
    rcases hb with hb | hb
    · exact ih _ b hb
    · subst hb
      constructor
      · positivity
      · exact_mod_cast Nat.mod_lt u (by norm_num)

/-- Unsigned decode of a byte list extended on the right. -/
theorem fromBytesU_append (bs : List Int) (b : Int) :
    fromBytesU (bs ++ [b]) = fromBytesU bs * 256 + b := by
  simp [fromBytesU, List.foldl_append]

/-- Unsigned decode inverts the byte encoding below `2 ^ (8 k)`. -/
theorem fromBytesU_natToBytes : ∀ (k u : Nat), u < 2 ^ (8 * k) →
    fromBytesU (natToBytes u k) = (u : Int) := by
  intro k
  induction k with
  | zero =>
    intro u hu
    rw [show 8 * 0 = 0 by ring, pow_zero] at hu
    interval_cases u
    rfl
  | succ k ih =>
    intro u hu
    rw [show 8 * (k + 1) = 8 * k + 8 by ring, pow_add] at hu
    have h1 : u / 256 < 2 ^ (8 * k) := by
      rw [Nat.div_lt_iff_lt_mul (by norm_num : 0 < 256)]
      calc u < 2 ^ (8 * k) * 2 ^ 8 := hu
      _ = 2 ^ (8 * k) * 256 := by norm_num
    show fromBytesU (natToBytes (u / 256) k ++ [((u % 256 : Nat) : Int)]) = (u : Int)
    rw [fromBytesU_append, ih _ h1]
    push_cast
    omega

/-- Signed decode inverts the two's-complement encoding of any in-range
value. -/
theorem fromBytesS_toBytes (v : Int) (k : Nat) (hk : 1 ≤ k)
    (hlo : -encBound k ≤ v) (hhi : v < encBound k) : fromBytesS (toBytes v k) = v := by
  have hb1 : (0 : Int) < encBound k := pow_pos (by norm_num) _
  have hpow : 2 * encBound k = 2 ^ (8 * k) := by
    unfold encBound
    rw [← pow_succ']
    congr 1
    omega
  have hnpos : (0 : Int) < 2 ^ (8 * k) := by positivity
  have hmod : v.emod (2 ^ (8 * k)) = if v < 0 then v + 2 ^ (8 * k) else v := by
    split
    · show v % (2 ^ (8 * k)) = v + 2 ^ (8 * k)
      have h1 : v % (2 ^ (8 * k)) = (v + 2 ^ (8 * k) * 1) % (2 ^ (8 * k)) := by
        rw [Int.add_mul_emod_self_left]
      rw [h1, mul_one, Int.emod_eq_of_lt (by omega) (by omega)]
    · exact Int.emod_eq_of_lt (by omega) (by omega)
  have hcast : ((v.emod (2 ^ (8 * k))).toNat : Int) = v.emod (2 ^ (8 * k)) :=
    Int.toNat_of_nonneg (Int.emod_nonneg v (ne_of_gt hnpos))
  have hbridge : ((2 ^ (8 * k) : Nat) : Int) = 2 ^ (8 * k) := by push_cast; ring
  have huN : (v.emod (2 ^ (8 * k))).toNat < 2 ^ (8 * k) := by
    have h2 : v.emod (2 ^ (8 * k)) < 2 ^ (8 * k) := Int.emod_lt_of_pos v hnpos
    omega
  unfold toBytes fromBytesS
  rw [natToBytes_length, fromBytesU_natToBytes _ _ huN, hcast, hmod]
  by_cases hv : v < 0
  · rw [if_pos hv]
    split <;> omega
  · rw [if_neg hv]
    split <;> omega

/-- toBytes produces exactly `k` bytes. -/
theorem toBytes_length (v : Int) (k : Nat) : (toBytes v k).length = k := by
  unfold toBytes
  exact natToBytes_length k _

/-- writeRange preserves the list length. -/
theorem writeRange_length : ∀ (bs : List Int) (xs : List (Option Int)) (p : Nat),
    (writeRange xs p bs).length = xs.length := by
  intro bs
  induction bs with
  | nil => intro xs p; rfl
  | cons b rest ih =>
    intro xs p
    show (writeRange (xs.set p (some b)) (p + 1) rest).length = xs.length
    rw [ih, List.length_set]

/-- writeRange leaves positions below the write window unchanged. -/
theorem writeRange_getElem_low : ∀ (bs : List Int) (xs : List (Option Int)) (p q : Nat),
    q < p → (writeRange xs p bs)[q]? = xs[q]? := by
  intro bs
  induction bs with
  | nil => intro xs p q _; rfl
  | cons b rest ih =>
    intro xs p q hq
    show (writeRange (xs.set p (some b)) (p + 1) rest)[q]? = xs[q]?
    rw [ih _ _ _ (by omega), List.getElem?_set, if_neg (by omega)]

/-- writeRange leaves positions at or above the write window unchanged. -/
theorem writeRange_getElem_high : ∀ (bs : List Int) (xs : List (Option Int)) (p q : Nat),
    p + bs.length ≤ q → (writeRange xs p bs)[q]? = xs[q]? := by
  intro bs
  induction bs with
  | nil => intro xs p q _; rfl
  | cons b rest ih =>
    intro xs p q hq
    simp only [List.length_cons] at hq
    show (writeRange (xs.set p (some b)) (p + 1) rest)[q]? = xs[q]?
    rw [ih _ _ _ (by omega), List.getElem?_set, if_neg (by omega)]

/-- writeRange stores each written byte at its position. -/
theorem writeRange_getElem_in : ∀ (bs : List Int) (xs : List (Option Int)) (p j : Nat) (b : Int),
    p + bs.length ≤ xs.length → bs[j]? = some b →
    (writeRange xs p bs)[p + j]? = some (some b) := by
  intro bs
  induction bs with
  | nil => intro xs p j b _ hj; cases hj
  | cons b0 rest ih =>
    intro xs p j b hlen hj
    simp only [List.length_cons] at hlen
    show (writeRange (xs.set p (some b0)) (p + 1) rest)[p + j]? = some (some b)
    cases j with
    | zero =>
      simp only [List.getElem?_cons_zero, Option.some_inj] at hj
      subst hj
      rw [writeRange_getElem_low _ _ _ _ (by omega), List.getElem?_set, Nat.add_zero,
        if_pos rfl, if_pos (by omega)]
    | succ j =>
      simp only [List.getElem?_cons_succ] at hj
      have := ih (xs.set p (some b0)) (p + 1) j b (by rw [List.length_set]; omega) hj
      rw [show p + (j + 1) = p + 1 + j by omega]
      exact this

/-- The decoded value at a position depends only on the bytes of its
window. -/
theorem readVal_congr (xs xs' : List (Option Int)) (pos enc : Nat)
    (h : ∀ j, j < enc → xs[pos * enc + j]? = xs'[pos * enc + j]?) :
    readVal xs pos enc = readVal xs' pos enc := by
  unfold readVal
  have hsl : (xs.drop (pos * enc)).take enc = (xs'.drop (pos * enc)).take enc := by
    apply List.ext_getElem?
    intro m
    rw [List.getElem?_take, List.getElem?_take]
    split
    · rw [List.getElem?_drop, List.getElem?_drop]
      exact h m (by omega)
    · rfl
  rw [hsl]

/-- A window holding exactly the bytes of `toBytes v enc` decodes to the
signed decode of those bytes. -/
theorem readVal_region (xs : List (Option Int)) (pos enc : Nat) (v : Int)
    (_hc : pos * enc + enc ≤ xs.length)
    (hb : ∀ j b, (toBytes v enc)[j]? = some b → xs[pos * enc + j]? = some (some b)) :
    readVal xs pos enc = fromBytesS (toBytes v enc) := by
  unfold readVal
  have hsl : ((xs.drop (pos * enc)).take enc).map (fun ob => ob.getD 0) = toBytes v enc := by
    apply List.ext_getElem?
    intro m
    rw [List.getElem?_map, List.getElem?_take]
    by_cases hm : m < enc
    · rw [if_pos hm, List.getElem?_drop]
      have hmlt : m < (toBytes v enc).length := by rw [toBytes_length]; omega
      obtain ⟨b, hbm⟩ : ∃ b, (toBytes v enc)[m]? = some b :=
        ⟨_, List.getElem?_eq_getElem hmlt⟩
      rw [hb m b hbm, hbm]
      rfl
    · rw [if_neg hm]
      symm
      apply List.getElem?_eq_none
      rw [toBytes_length]
      omega
  rw [hsl]

/-- A window holding the encoding of an in-range value decodes to that
value. -/
theorem readVal_region_val (xs : List (Option Int)) (pos enc : Nat) (v : Int)
    (hk : 1 ≤ enc) (hlo : -encBound enc ≤ v) (hhi : v < encBound enc)
    (hc : pos * enc + enc ≤ xs.length)
    (hb : ∀ j b, (toBytes v enc)[j]? = some b → xs[pos * enc + j]? = some (some b)) :
    readVal xs pos enc = v := by
  rw [readVal_region xs pos enc v hc hb]
  exact fromBytesS_toBytes v enc hk hlo hhi

/-- Invariant of the back-to-front re-encoding loop of
`_upgrade_and_add`: starting from a list agreeing with `c0` on the first
`i * oldE` bytes, running the iterations for indices `i-1 .. 0` (a)
preserves the length, (b) leaves every byte at or above
`(i + prepend) * newE` unchanged, and (c) plants the `newE`-byte
encoding of the `j`-th original member at window `(j + prepend) * newE`
for every `j < i`.  In particular each iteration reads its `oldE`-byte
window before any write can reach it. -/
theorem upLoop_spec (oldE newE prepend len : Nat) (c0 : List (Option Int)) (L : Nat)
    (hen : oldE ≤ newE) (hpp : prepend ≤ 1)
    (hL : (len + 1) * newE ≤ L) (hc0 : c0.length = L) :
    ∀ (i : Nat) (xs : List (Option Int)), i ≤ len → xs.length = L →
      (∀ q, q < i * oldE → xs[q]? = c0[q]?) →
      ((upLoop oldE newE prepend i xs).length = L
        ∧ (∀ q, (i + prepend) * newE ≤ q → (upLoop oldE newE prepend i xs)[q]? = xs[q]?)
        ∧ (∀ j, j < i → ∀ jj b, (toBytes (readVal c0 j oldE) newE)[jj]? = some b →
             (upLoop oldE newE prepend i xs)[(j + prepend) * newE + jj]? = some (some b))) := by
  intro i
  induction i with
  | zero =>
    intro xs _ hxslen _
    exact ⟨hxslen, fun q _ => rfl, fun j hj => absurd hj (Nat.not_lt_zero j)⟩
  | succ i ih =>
    intro xs hi hxslen hpre
    have hv : readVal xs i oldE = readVal c0 i oldE := by
      apply readVal_congr
      intro j hj
      apply hpre
      have : i * oldE + oldE = (i + 1) * oldE := by ring
      omega
    have hstep : upLoop oldE newE prepend (i + 1) xs =
        upLoop oldE newE prepend i
          (writeRange xs ((i + prepend) * newE) (toBytes (readVal c0 i oldE) newE)) := by
      show upLoop oldE newE prepend i (upStep oldE newE prepend i xs) = _
      rw [upStep, hv]
    set bs := toBytes (readVal c0 i oldE) newE with hbs
    have hbslen : bs.length = newE := toBytes_length _ _
    set xs' := writeRange xs ((i + prepend) * newE) bs with hxs'
    have hxs'len : xs'.length = L := by rw [hxs', writeRange_length, hxslen]
    have hmul1 : i * oldE ≤ (i + prepend) * newE := by
      calc i * oldE ≤ i * newE := Nat.mul_le_mul_left i hen
      _ ≤ (i + prepend) * newE := Nat.mul_le_mul_right newE (by omega)
    have hwin : (i + prepend) * newE + newE ≤ L := by
      have h1 : (i + prepend) * newE + newE = (i + prepend + 1) * newE := by ring
      have h2 : (i + prepend + 1) * newE ≤ (len + 1) * newE :=
        Nat.mul_le_mul_right newE (by omega)
      omega
    have hpre' : ∀ q, q < i * oldE → xs'[q]? = c0[q]? := by
      intro q hq
      rw [hxs', writeRange_getElem_low _ _ _ _ (by omega)]
      apply hpre
      have : i * oldE ≤ (i + 1) * oldE := Nat.mul_le_mul_right oldE (by omega)
      omega
    obtain ⟨ihlen, ihhigh, ihreg⟩ := ih xs' (by omega) hxs'len hpre'
    rw [hstep]
    refine ⟨ihlen, ?_, ?_⟩
    · intro q hq
      have h1 : (i + prepend) * newE ≤ (i + 1 + prepend) * newE :=
        Nat.mul_le_mul_right newE (by omega)
      rw [ihhigh q (by omega), hxs', writeRange_getElem_high]
      have h2 : (i + prepend) * newE + newE = (i + prepend + 1) * newE := by ring
      have h3 : (i + prepend + 1) * newE = (i + 1 + prepend) * newE := by ring
      omega
    · intro j hj jj b hjj
      rcases Nat.lt_succ_iff_lt_or_eq.mp hj with hj' | hj'
      · exact ihreg j hj' jj b hjj
      · subst hj'
        rw [← hbs] at hjj
        have hjjlt : jj < newE := by
          by_contra hge
          rw [List.getElem?_eq_none (by omega)] at hjj
          cases hjj
        rw [ihhigh _ (by omega), hxs']
        exact writeRange_getElem_in bs xs ((j + prepend) * newE) jj b (by omega) hjj

/-- Wider encodings admit wider signed ranges. -/
theorem encBound_mono {a b : Nat} (hab : a ≤ b) : encBound a ≤ encBound b := by
  unfold encBound
  apply pow_le_pow_right₀ (by norm_num)
  omega

/-- Signed range bounds are positive. -/
theorem encBound_pos (k : Nat) : (0 : Int) < encBound k := pow_pos (by norm_num) _

/-- `_get_encoding` returns one of the three legal widths. -/
theorem getEncoding_mem (v : Int) :
    IntSet.getEncoding v = 2 ∨ IntSet.getEncoding v = 4 ∨ IntSet.getEncoding v = 8 := by
  unfold IntSet.getEncoding
  split_ifs <;> simp

/-- A value inside a legal width's signed range needs no wider width. -/
theorem getEncoding_le_of_range (e : Nat) (he : e = 2 ∨ e = 4 ∨ e = 8) (v : Int)
    (hlo : -encBound e ≤ v) (hhi : v < encBound e) : IntSet.getEncoding v ≤ e := by
  rcases he with rfl | rfl | rfl <;>
  · unfold encBound at hlo hhi
    norm_num at hlo hhi
    unfold IntSet.getEncoding
    split_ifs <;> omega

/-- Any 64-bit value lies inside the signed range of its own required
encoding. -/
theorem getEncoding_range (v : Int) (hlo64 : -encBound 8 ≤ v) (hhi64 : v < encBound 8) :
    -encBound (IntSet.getEncoding v) ≤ v ∧ v < encBound (IntSet.getEncoding v) := by
  unfold encBound at hlo64 hhi64 ⊢
  norm_num at hlo64 hhi64
  unfold IntSet.getEncoding
  split_ifs <;> norm_num <;> omega

/-- A value whose required encoding exceeds a legal width lies strictly
outside that width's signed range, on the side of its sign. -/
theorem out_of_range_of_encoding_lt (e : Nat) (he : e = 2 ∨ e = 4 ∨ e = 8) (v : Int)
    (henc : e < IntSet.getEncoding v) :
    (v < 0 → v < -encBound e) ∧ (0 ≤ v → encBound e ≤ v) := by
  constructor
  · intro hv0
    by_contra hcon
    push_neg at hcon
    have hb := encBound_pos e
    have hle := getEncoding_le_of_range e he v hcon (by omega)
    omega
  · intro hv0
    by_contra hcon
    push_neg at hcon
    have hb := encBound_pos e
    have hle := getEncoding_le_of_range e he v (by omega) hcon
    omega

/-- `_upgrade_and_add` written as one explicit state expression. -/
theorem upgradeAndAdd_eq (s : IntSet) (v : Int) :
    s.upgradeAndAdd v =
      { encoding := IntSet.getEncoding v,
        length := s.length + 1,
        contents := writeRange
          (upLoop s.encoding (IntSet.getEncoding v) (if v < 0 then 1 else 0) s.length
            (s.contents ++ List.replicate
              (s.length * (IntSet.getEncoding v - s.encoding) + IntSet.getEncoding v) none))
          ((if v < 0 then 0 else s.length) * IntSet.getEncoding v)
          (toBytes v (IntSet.getEncoding v)) } := by
  rw [IntSet.upgradeAndAdd]
  by_cases hv : v < 0 <;> simp [hv, setVal]

/-- Width-upgrading insertion: the encoding becomes the value's required
encoding, the logical size grows by one, every previous member is
preserved (shifted by one slot when the new value is prepended), the new
value is stored at the front or back according to its sign, and the
members remain strictly increasing. -/
theorem upgradeAndAdd_spec (s : IntSet) (v : Int)
    (hwf : s.wfB = true) (henc : s.encoding < IntSet.getEncoding v)
    (hlo64 : -encBound 8 ≤ v) (hhi64 : v < encBound 8) :
    (s.upgradeAndAdd v).encoding = IntSet.getEncoding v
    ∧ (s.upgradeAndAdd v).length = s.length + 1
    ∧ (∀ j, j < s.length →
        (s.upgradeAndAdd v).memberAt (j + (if v < 0 then 1 else 0)) = s.memberAt j)
    ∧ (s.upgradeAndAdd v).memberAt (if v < 0 then 0 else s.length) = v
    ∧ (∀ i, i + 1 < s.length + 1 →
        (s.upgradeAndAdd v).memberAt i < (s.upgradeAndAdd v).memberAt (i + 1)) := by
  unfold IntSet.wfB at hwf
  simp only [Bool.and_eq_true, Bool.or_eq_true, beq_iff_eq, List.all_eq_true,
    List.mem_range, decide_eq_true_eq] at hwf
  obtain ⟨⟨⟨⟨hencmem, hclen⟩, _hbytes⟩, hrange⟩, hsort⟩ := hwf
  have hencmem' : s.encoding = 2 ∨ s.encoding = 4 ∨ s.encoding = 8 := by
    rcases hencmem with h | h
    · rcases h with h | h
      · exact Or.inl h
      · exact Or.inr (Or.inl h)
    · exact Or.inr (Or.inr h)
  have hoe1 : 1 ≤ s.encoding := by rcases hencmem' with h | h | h <;> omega
  have hne1 : 1 ≤ IntSet.getEncoding v := by rcases getEncoding_mem v with h | h | h <;> omega
  have hen : s.encoding ≤ IntSet.getEncoding v := le_of_lt henc
  set len := s.length with hlendef
  set oldE := s.encoding with holdE
  set newE := IntSet.getEncoding v with hnewE
  set prepend := (if v < 0 then (1 : Nat) else 0) with hprep
  set pos := (if v < 0 then (0 : Nat) else len) with hpos
  have hpp : prepend ≤ 1 := by rw [hprep]; split <;> omega
  have hposle : pos ≤ len := by rw [hpos]; split <;> omega
  set c0 := s.contents ++ List.replicate (len * (newE - oldE) + newE) (none : Option Int)
    with hc0def
  have hc0len : c0.length = (len + 1) * newE := by
    have h1 : len * (newE - oldE) + len * oldE = len * newE := by
      rw [← Nat.mul_add, Nat.sub_add_cancel hen]
    have h2 : (len + 1) * newE = len * newE + newE := by ring
    rw [hc0def]
    simp only [List.length_append, List.length_replicate, hclen]
    omega
  have hmem0 : ∀ j, j < len → readVal c0 j oldE = s.memberAt j := by
    intro j hj
    apply readVal_congr
    intro q hq
    have hsucc : (j + 1) * oldE = j * oldE + oldE := by ring
    have hjle : (j + 1) * oldE ≤ len * oldE := Nat.mul_le_mul_right oldE (by omega)
    rw [hc0def, List.getElem?_append, if_pos (by rw [hclen]; omega)]
  obtain ⟨h1len, h1high, h1reg⟩ :=
    upLoop_spec oldE newE prepend len c0 ((len + 1) * newE) hen hpp (le_refl _) hc0len
      len c0 (le_refl len) hc0len (fun q _ => rfl)
  set c1 := upLoop oldE newE prepend len c0 with hc1def
  set bsv := toBytes v newE with hbsv
  have hbsvlen : bsv.length = newE := toBytes_length _ _
  have hupg : s.upgradeAndAdd v =
      { encoding := newE, length := len + 1, contents := writeRange c1 (pos * newE) bsv } := by
    rw [upgradeAndAdd_eq]
  have hc2len : (writeRange c1 (pos * newE) bsv).length = (len + 1) * newE := by
    rw [writeRange_length, h1len]
  have hposwin : pos * newE + newE ≤ (len + 1) * newE := by
    have : (pos + 1) * newE ≤ (len + 1) * newE := Nat.mul_le_mul_right newE (by omega)
    have h3 : (pos + 1) * newE = pos * newE + newE := by ring
    omega
  have hpres : ∀ j, j < len →
      readVal (writeRange c1 (pos * newE) bsv) (j + prepend) newE = s.memberAt j := by
    intro j hj
    have hrj := hrange j hj
    have hjwin : (j + prepend) * newE + newE ≤ (len + 1) * newE := by
      have : (j + prepend + 1) * newE ≤ (len + 1) * newE :=
        Nat.mul_le_mul_right newE (by omega)
      have h3 : (j + prepend + 1) * newE = (j + prepend) * newE + newE := by ring
      omega
    apply readVal_region_val _ _ _ (s.memberAt j) hne1
      (le_trans (neg_le_neg (encBound_mono hen)) hrj.1)
      (lt_of_lt_of_le hrj.2 (encBound_mono hen))
      (by rw [hc2len]; exact hjwin)
    intro jj b hjj
    have hjjlt : jj < newE := by
      by_contra hge
      rw [List.getElem?_eq_none (by rw [toBytes_length]; omega)] at hjj
      cases hjj
    have hdisj : (writeRange c1 (pos * newE) bsv)[(j + prepend) * newE + jj]?
        = c1[(j + prepend) * newE + jj]? := by
      by_cases hv : v < 0
      · apply writeRange_getElem_high
        have h0 : pos = 0 := by rw [hpos, if_pos hv]
        have h1 : prepend = 1 := by rw [hprep, if_pos hv]
        have h2 : (j + 1) * newE = j * newE + newE := by ring
        rw [h0, h1]
        omega
      · apply writeRange_getElem_low
        have h0 : pos = len := by rw [hpos, if_neg hv]
        have h1 : prepend = 0 := by rw [hprep, if_neg hv]
        have h2 : (j + 1) * newE = j * newE + newE := by ring
        have h3 : (j + 1) * newE ≤ len * newE := Nat.mul_le_mul_right newE (by omega)
        rw [h0, h1]
        simp only [Nat.add_zero]
        omega
    rw [hdisj]
    apply h1reg j hj jj b
    rw [hmem0 j hj]
    exact hjj
  have hnew : readVal (writeRange c1 (pos * newE) bsv) pos newE = v := by
    have hr := getEncoding_range v hlo64 hhi64
    apply readVal_region_val _ _ _ v hne1 hr.1 hr.2 (by rw [hc2len]; exact hposwin)
    intro jj b hjj
    exact writeRange_getElem_in bsv c1 (pos * newE) jj b (by rw [h1len]; omega) hjj
  have hvout := out_of_range_of_encoding_lt oldE hencmem' v henc
  have hsorted : ∀ i, i + 1 < len + 1 →
      readVal (writeRange c1 (pos * newE) bsv) i newE
        < readVal (writeRange c1 (pos * newE) bsv) (i + 1) newE := by
    intro i hi
    by_cases hv : v < 0
    · have h0 : pos = 0 := by rw [hpos, if_pos hv]
      have h1 : prepend = 1 := by rw [hprep, if_pos hv]
      cases i with
      | zero =>
        have hl0 : 0 < len := by omega
        have he0 : readVal (writeRange c1 (pos * newE) bsv) 0 newE = v := by
          rw [← h0]; exact hnew
        have he1 : readVal (writeRange c1 (pos * newE) bsv) 1 newE = s.memberAt 0 := by
          have := hpres 0 hl0
          rw [h1] at this
          exact this
        rw [he0, he1]
        calc v < -encBound oldE := hvout.1 hv
        _ ≤ s.memberAt 0 := (hrange 0 hl0).1
      | succ i =>
        have hi1 : i + 1 < len := by omega
        have hei : readVal (writeRange c1 (pos * newE) bsv) (i + 1) newE = s.memberAt i := by
          have := hpres i (by omega)
          rw [h1] at this
          exact this
        have hei1 : readVal (writeRange c1 (pos * newE) bsv) (i + 2) newE
            = s.memberAt (i + 1) := by
          have := hpres (i + 1) hi1
          rw [h1] at this
          exact this
        rw [hei, hei1]
        rcases hsort i (by omega) with h | h
        · omega
        · exact h
    · have h0 : pos = len := by rw [hpos, if_neg hv]
      have h1 : prepend = 0 := by rw [hprep, if_neg hv]
      by_cases hilast : i + 1 = len
      · have hei : readVal (writeRange c1 (pos * newE) bsv) i newE = s.memberAt i := by
          have := hpres i (by omega)
          rw [h1, Nat.add_zero] at this
          exact this
        have hei1 : readVal (writeRange c1 (pos * newE) bsv) (i + 1) newE = v := by
          rw [hilast, ← h0]; exact hnew
        rw [hei, hei1]
        calc s.memberAt i < encBound oldE := (hrange i (by omega)).2
        _ ≤ v := hvout.2 (by omega)
      · have hei : readVal (writeRange c1 (pos * newE) bsv) i newE = s.memberAt i := by
          have := hpres i (by omega)
          rw [h1, Nat.add_zero] at this
          exact this
        have hei1 : readVal (writeRange c1 (pos * newE) bsv) (i + 1) newE
            = s.memberAt (i + 1) := by
          have := hpres (i + 1) (by omega)
          rw [h1, Nat.add_zero] at this
          exact this
        rw [hei, hei1]
        rcases hsort i (by omega) with h | h
        · omega
        · exact h
  refine ⟨by rw [hupg], by rw [hupg], ?_, ?_, ?_⟩
  · intro j hj
    show (s.upgradeAndAdd v).memberAt (j + prepend) = s.memberAt j
    rw [hupg]
    exact hpres j hj
  · show (s.upgradeAndAdd v).memberAt pos = v
    rw [hupg]
    exact hnew
  · intro i hi
    rw [hupg]
    exact hsorted i hi

/-- `add` changes the encoding only by upgrading it to the value's
required encoding. -/
theorem add_encoding (t : IntSet) (w : Int) :
    (t.add w).encoding =
      if t.encoding < IntSet.getEncoding w then IntSet.getEncoding w else t.encoding := by
  rw [IntSet.add]
  split
  · rw [upgradeAndAdd_eq]
  · dsimp only
    split <;> rfl

/-- `delete` never touches the encoding. -/
theorem delete_encoding (t : IntSet) (w : Int) : (t.delete w).encoding = t.encoding := by
  rw [IntSet.delete]
  split
  · dsimp only
    split <;> rfl
  · rfl

/-- CLAIM C5 (confirmed, for values representable in the widest (64-bit)
encoding — beyond it Python's `int.to_bytes` raises rather than stores).
First block: on a well-formed IntSet, `add(v)` for a value whose
required encoding exceeds the current one upgrades the encoding to
exactly the required encoding while preserving every previously stored
member's value (shifted one slot when the negative value is prepended)
and the strictly-sorted order, and stores `v` itself at the proper end.
Second block: no operation decreases the encoding — `add` only ever
raises it and `delete` leaves it untouched.  Third block: `find(v)` is
`false` for any value requiring a wider encoding than the current one. -/
theorem c5_intset_encoding (s : IntSet) (v : Int)
    (hwf : s.wfB = true) (henc : s.encoding < IntSet.getEncoding v)
    (hlo64 : -encBound 8 ≤ v) (hhi64 : v < encBound 8) :
    ((s.add v).encoding = IntSet.getEncoding v
      ∧ (s.add v).length = s.length + 1
      ∧ (∀ j, j < s.length →
          (s.add v).memberAt (j + (if v < 0 then 1 else 0)) = s.memberAt j)
      ∧ (s.add v).memberAt (if v < 0 then 0 else s.length) = v
      ∧ (∀ i, i + 1 < s.length + 1 → (s.add v).memberAt i < (s.add v).memberAt (i + 1)))
    ∧ (∀ (t : IntSet) (w : Int),
        t.encoding ≤ (t.add w).encoding ∧ (t.delete w).encoding = t.encoding)
    ∧ (∀ (t : IntSet) (w : Int), t.encoding < IntSet.getEncoding w → t.find w = false) := by
  refine ⟨?_, ?_, ?_⟩
  · have hadd : s.add v = s.upgradeAndAdd v := by
      rw [IntSet.add, if_pos henc]
    rw [hadd]
    exact upgradeAndAdd_spec s v hwf henc hlo64 hhi64
  · intro t w
    refine ⟨?_, delete_encoding t w⟩
    rw [add_encoding]
    split
    · omega
    · exact le_refl _
  · intro t w hw
    rw [IntSet.find]
    have hd : decide (IntSet.getEncoding w ≤ t.encoding) = false := by
      simp only [decide_eq_false_iff_not]
      omega
    rw [hd, Bool.false_and]

/-- Witness for `c5_intset_encoding` at the concrete 16-bit set `{5}` and
the 32-bit value 35267: the encoding upgrades to 4 bytes, the member 5
is preserved at slot 0, 35267 is appended at slot 1, and `find` rejects
the 32-bit value 70000 on the original 16-bit set. -/
theorem c5_intset_witness :
    (intSet5.add 35267).encoding = IntSet.getEncoding 35267
    ∧ (intSet5.add 35267).length = 2
    ∧ (intSet5.add 35267).memberAt 0 = 5
    ∧ (intSet5.add 35267).memberAt 1 = 35267
    ∧ intSet5.find 70000 = false := by
  have h := c5_intset_encoding intSet5 35267 (by decide) (by decide) (by decide) (by decide)
  refine ⟨h.1.1, h.1.2.1, ?_, ?_, h.2.2 intSet5 70000 (by decide)⟩
  · exact (h.1.2.2.1 0 (by decide)).trans (by decide)
  · exact h.1.2.2.2.1

/-! String and bit-vector synthesizer lemmas. -/

/-- The candidate-checking integer oracle is sound. -/
theorem intTry_sound (w : Int) : intOracleSound (intTry w) := by
  intro cs v hv c hc
  by_cases h : cs.all (fun c => intHoldsB c w) = true
  · rw [intTry, if_pos h] at hv
    injection hv with h'
    subst h'
    exact List.all_eq_true.mp h c hc
  · rw [intTry, if_neg h] at hv
    cases hv

/-- The candidate-checking string oracle is sound. -/
theorem strTry_sound (w : List Nat) : strOracleSound (strTry w) := by
  intro cs m hm c hc
  by_cases h : cs.all (fun c => strHoldsB c w) = true
  · rw [strTry, if_pos h] at hm
    injection hm with h'
    subst h'
    exact List.all_eq_true.mp h c hc
  · rw [strTry, if_neg h] at hm
    cases hm

/-- The candidate-checking bit-vector oracle is sound. -/
theorem bvTry_sound (bits w : Nat) : bvOracleSound bits (bvTry bits w) := by
  intro cs n hn
  by_cases h : (decide (w < 2 ^ bits) && cs.all (fun c => bvHoldsB bits c w)) = true
  · rw [bvTry, if_pos h] at hn
    injection hn with h'
    subst h'
    rw [Bool.and_eq_true, decide_eq_true_eq] at h
    exact ⟨h.1, fun c hc => List.all_eq_true.mp h.2 c hc⟩
  · rw [bvTry, if_neg h] at hn
    cases hn

/-- A proper prefix is lexicographically smaller. -/
theorem strLtB_take_lt (m : List Nat) : ∀ (k : Nat), k < m.length →
    strLtB (m.take k) m = true := by
  induction m with
  | nil => intro k hk; simp at hk
  | cons a s ih =>
    intro k hk
    cases k with
    | zero => rfl
    | succ k =>
      simp only [List.take_succ_cons]
      have := ih k (Nat.lt_of_succ_lt_succ hk)
      simp [strLtB, this]

/-- Strings agreeing up to position `o` with a strictly smaller character
at position `o` compare lexicographically smaller. -/
theorem strLtB_eq_take_lt : ∀ (o : Nat) (m u : List Nat), m.take o = u.take o →
    o < m.length → o < u.length → m.getD o 0 < u.getD o 0 → strLtB m u = true := by
  intro o
  induction o with
  | zero =>
    intro m u _ hm hu hlt
    cases m with
    | nil => simp at hm
    | cons a s =>
      cases u with
      | nil => simp at hu
      | cons b t =>
        simp only [List.getD_cons_zero] at hlt
        simp [strLtB, hlt]
  | succ o ih =>
    intro m u htake hm hu hlt
    cases m with
    | nil => simp at hm
    | cons a s =>
      cases u with
      | nil => simp at hu
      | cons b t =>
        simp only [List.take_succ_cons, List.cons.injEq] at htake
        obtain ⟨rfl, htk⟩ := htake
        simp only [List.getD_cons_succ] at hlt
        have := ih s t htk (by simpa using hm) (by simpa using hu) hlt
        simp [strLtB, this]

/-- Every string matching a template produced by the lt-scan on a
non-empty bound is lexicographically below the bound. -/
theorem ltScan_sound (u : List Nat) (hu : u.length ≠ 0) (o : Nat) (t : Template)
    (ht : ltScan u o = .ok t) (m : List Nat) (hm : matchesB t m = true) :
    strLtB m u = true := by
  have main : ∀ (fuel o : Nat), u.length - o ≤ fuel → ∀ t, ltScan u o = .ok t →
      ∀ m, matchesB t m = true → strLtB m u = true := by
    intro fuel
    induction fuel with
    | zero =>
      intro o ho t ht m hm
      have hole : ¬ o < u.length := by omega
      rw [ltScan, dif_neg hole] at ht
      injection ht with ht
      subst ht
      simp only [matchesB, beq_iff_eq] at hm
      subst hm
      exact strLtB_take_lt u (u.length - 1) (by omega)
    | succ fuel ih =>
      intro o ho t ht m hm
      by_cases h : o < u.length
      · rw [ltScan, dif_pos h] at ht
        by_cases h1 : u.getD o 0 < 32 ∨ 126 < u.getD o 0
        · rw [if_pos h1] at ht; cases ht
        · rw [if_neg h1] at ht
          by_cases h2 : u.getD o 0 = 32
          · rw [if_pos h2] at ht
            exact ih (o + 1) (by omega) t ht m hm
          · rw [if_neg h2] at ht
            injection ht with ht
            subst ht
            simp only [matchesB, Bool.and_eq_true, beq_iff_eq, decide_eq_true_eq,
              List.length_take] at hm
            have hmin : min o u.length = o := by omega
            rw [hmin] at hm
            obtain ⟨⟨⟨htk, hlen⟩, hlo, hhi⟩, _⟩ := hm
            apply strLtB_eq_take_lt o m u htk hlen h
            omega
      · rw [ltScan, dif_neg h] at ht
        injection ht with ht
        subst ht
        simp only [matchesB, beq_iff_eq] at hm
        subst hm
        exact strLtB_take_lt u (u.length - 1) (by omega)
  exact main (u.length - o) o (le_refl _) t ht m hm

/-- Every string matching a template produced by the gt-scan is
lexicographically above the bound. -/
theorem gtScan_sound (l : List Nat) (o : Nat) (t : Template)
    (ht : gtScan l o = .ok t) (m : List Nat) (hm : matchesB t m = true) :
    strLtB l m = true := by
  have main : ∀ (fuel o : Nat), l.length - o ≤ fuel → ∀ t, gtScan l o = .ok t →
      ∀ m, matchesB t m = true → strLtB l m = true := by
    intro fuel
    induction fuel with
    | zero =>
      intro o ho t ht m hm
      have hole : ¬ o < l.length := by omega
      rw [gtScan, dif_neg hole] at ht
      injection ht with ht
      subst ht
      simp only [matchesB, Bool.and_eq_true, beq_iff_eq, decide_eq_true_eq] at hm
      obtain ⟨⟨htk, hlen⟩, _⟩ := hm
      have := strLtB_take_lt m l.length hlen
      rwa [htk] at this
    | succ fuel ih =>
      intro o ho t ht m hm
      by_cases h : o < l.length
      · rw [gtScan, dif_pos h] at ht
        by_cases h1 : l.getD o 0 < 32 ∨ 126 < l.getD o 0
        · rw [if_pos h1] at ht; cases ht
        · rw [if_neg h1] at ht
          by_cases h2 : l.getD o 0 = 126
          · rw [if_pos h2] at ht
            exact ih (o + 1) (by omega) t ht m hm
          · rw [if_neg h2] at ht
            injection ht with ht
            subst ht
            simp only [matchesB, Bool.and_eq_true, beq_iff_eq, decide_eq_true_eq,
              List.length_take] at hm
            have hmin : min o l.length = o := by omega
            rw [hmin] at hm
            obtain ⟨⟨⟨htk, hlen⟩, hlo, hhi⟩, _⟩ := hm
            apply strLtB_eq_take_lt o l m htk.symm h hlen
            omega
      · rw [gtScan, dif_neg h] at ht
        injection ht with ht
        subst ht
        simp only [matchesB, Bool.and_eq_true, beq_iff_eq, decide_eq_true_eq] at hm
        obtain ⟨⟨htk, hlen⟩, _⟩ := hm
        have := strLtB_take_lt m l.length hlen
        rwa [htk] at this
  exact main (l.length - o) o (le_refl _) t ht m hm

/-- The lt-scan succeeds exactly when the first non-minimum character at
or after the offset (if any) lies inside the charset. -/
theorem ltScan_ok_iff (u : List Nat) (o : Nat) : isOkE (ltScan u o) = !ltBad u o := by
  have main : ∀ (fuel o : Nat), u.length - o ≤ fuel → isOkE (ltScan u o) = !ltBad u o := by
    intro fuel
    induction fuel with
    | zero =>
      intro o ho
      have hole : ¬ o < u.length := by omega
      have hd : u.drop o = [] := List.drop_eq_nil_of_le (by omega)
      rw [ltScan, dif_neg hole]
      simp [isOkE, ltBad, hd]
    | succ fuel ih =>
      intro o ho
      by_cases h : o < u.length
      · have hd : u.drop o = u.getD o 0 :: u.drop (o + 1) := by
          rw [List.getD_eq_getElem u 0 h]
          exact List.drop_eq_getElem_cons h
        rw [ltScan, dif_pos h]
        by_cases h1 : u.getD o 0 < 32 ∨ 126 < u.getD o 0
        · rw [if_pos h1]
          have hne : (u.getD o 0 == 32) = false := by
            simp only [beq_eq_false_iff_ne, ne_eq]; omega
          rw [ltBad, hd, List.dropWhile_cons, hne]
          simp only [Bool.false_eq_true, if_false, isOkE]
          have : (decide (u.getD o 0 < 32) || decide (126 < u.getD o 0)) = true := by
            simp only [Bool.or_eq_true, decide_eq_true_eq]; omega
          rw [this]
          rfl
        · rw [if_neg h1]
          by_cases h2 : u.getD o 0 = 32
          · rw [if_pos h2]
            have h32 : (u.getD o 0 == 32) = true := by
              simp only [beq_iff_eq]; exact h2
            have hb : ltBad u o = ltBad u (o + 1) := by
              rw [ltBad, hd, List.dropWhile_cons, h32, if_pos rfl, ltBad]
            rw [hb]
            exact ih (o + 1) (by omega)
          · rw [if_neg h2]
            have hne : (u.getD o 0 == 32) = false := by
              simp only [beq_eq_false_iff_ne, ne_eq]; exact h2
            rw [ltBad, hd, List.dropWhile_cons, hne]
            simp only [Bool.false_eq_true, if_false, isOkE]
            have : (decide (u.getD o 0 < 32) || decide (126 < u.getD o 0)) = false := by
              simp only [Bool.or_eq_false_iff, decide_eq_false_iff_not]; omega
            rw [this]
            rfl
      · have hd : u.drop o = [] := List.drop_eq_nil_of_le (by omega)
        rw [ltScan, dif_neg h]
        simp [isOkE, ltBad, hd]
  exact main (u.length - o) o (le_refl _)

/-- The gt-scan succeeds exactly when the first non-maximum character at
or after the offset (if any) lies inside the charset. -/
theorem gtScan_ok_iff (l : List Nat) (o : Nat) : isOkE (gtScan l o) = !gtBad l o := by
  have main : ∀ (fuel o : Nat), l.length - o ≤ fuel → isOkE (gtScan l o) = !gtBad l o := by
    intro fuel
    induction fuel with
    | zero =>
      intro o ho
      have hole : ¬ o < l.length := by omega
      have hd : l.drop o = [] := List.drop_eq_nil_of_le (by omega)
      rw [gtScan, dif_neg hole]
      simp [isOkE, gtBad, hd]
    | succ fuel ih =>
      intro o ho
      by_cases h : o < l.length
      · have hd : l.drop o = l.getD o 0 :: l.drop (o + 1) := by
          rw [List.getD_eq_getElem l 0 h]
          exact List.drop_eq_getElem_cons h
        rw [gtScan, dif_pos h]
        by_cases h1 : l.getD o 0 < 32 ∨ 126 < l.getD o 0
        · rw [if_pos h1]
          have hne : (l.getD o 0 == 126) = false := by
            simp only [beq_eq_false_iff_ne, ne_eq]; omega
          rw [gtBad, hd, List.dropWhile_cons, hne]
          simp only [Bool.false_eq_true, if_false, isOkE]
          have : (decide (l.getD o 0 < 32) || decide (126 < l.getD o 0)) = true := by
            simp only [Bool.or_eq_true, decide_eq_true_eq]; omega
          rw [this]
          rfl
        · rw [if_neg h1]
          by_cases h2 : l.getD o 0 = 126
          · rw [if_pos h2]
            have h126 : (l.getD o 0 == 126) = true := by
              simp only [beq_iff_eq]; exact h2
            have hb : gtBad l o = gtBad l (o + 1) := by
              rw [gtBad, hd, List.dropWhile_cons, h126, if_pos rfl, gtBad]
            rw [hb]
            exact ih (o + 1) (by omega)
          · rw [if_neg h2]
            have hne : (l.getD o 0 == 126) = false := by
              simp only [beq_eq_false_iff_ne, ne_eq]; exact h2
            rw [gtBad, hd, List.dropWhile_cons, hne]
            simp only [Bool.false_eq_true, if_false, isOkE]
            have : (decide (l.getD o 0 < 32) || decide (126 < l.getD o 0)) = false := by
              simp only [Bool.or_eq_false_iff, decide_eq_false_iff_not]; omega
            rw [this]
            rfl
      · have hd : l.drop o = [] := List.drop_eq_nil_of_le (by omega)
        rw [gtScan, dif_neg h]
        simp [isOkE, gtBad, hd]
  exact main (l.length - o) o (le_refl _)

/-- The lt-scan of an all-minimum (all-space) bound falls through to the
truncation template: exactly the bound minus its last character. -/
theorem ltScan_replicate32 (n o : Nat) :
    ltScan (List.replicate n 32) o = .ok (.exactT (List.replicate (n - 1) 32)) := by
  have main : ∀ (fuel o : Nat), n - o ≤ fuel →
      ltScan (List.replicate n 32) o = .ok (.exactT (List.replicate (n - 1) 32)) := by
    intro fuel
    induction fuel with
    | zero =>
      intro o ho
      have hole : ¬ o < (List.replicate n 32 : List Nat).length := by
        simp only [List.length_replicate]; omega
      rw [ltScan, dif_neg hole]
      simp only [List.length_replicate, List.take_replicate]
      have hmin : min (n - 1) n = n - 1 := by omega
      rw [hmin]
    | succ fuel ih =>
      intro o ho
      by_cases h : o < (List.replicate n 32 : List Nat).length
      · rw [ltScan, dif_pos h]
        have hg : (List.replicate n 32 : List Nat).getD o 0 = 32 := by
          rw [List.getD_eq_getElem _ 0 h, List.getElem_replicate]
        rw [hg, if_neg (show ¬((32 : Nat) < 32 ∨ 126 < (32 : Nat)) by omega), if_pos rfl]
        have h' : o < n := by simpa using h
        exact ih (o + 1) (by omega)
      · rw [ltScan, dif_neg h]
        simp only [List.length_replicate, List.take_replicate]
        have hmin : min (n - 1) n = n - 1 := by omega
        rw [hmin]
  exact main (n - o) o (le_refl _)

/-- C7, counterexample.  Over the default charset the bound "A" (code 65)
is NOT the alphabet minimum (the minimum is the space, code 32):
`lt_constraint("A")` yields the one-smaller-character template, whose
language excludes the empty string; with a model-checking solver the
synthesis on bound "A" returns the string " ", not "". -/
theorem c7_counterexample :
    ltCs [65] 0 = .ok [.tmpl (.midT [] 32 64)]
    ∧ matchesB (.midT [] 32 64) [] = false
    ∧ strLtSynth (strTry [32]) [65] = .ok (some { data := [32], synthesized := true }) := by
  refine ⟨?_, by decide, ?_⟩
  · simp [ltCs, ltScan, Except.map]
  · simp [strLtSynth, ltCs, ltScan, strTry, strHoldsB, matchesB, inCS, Except.map]

/-- C7, amended.  Truncation is the fallback when every character of the
bound is the charset MINIMUM (the space, code 32): on an all-space bound
the lt-constraint admits exactly the bound minus its last character, so
`lt_constraint(" ")` synthesizes the empty string.  On the bound "A" the
template instead admits only non-empty strings, each lexicographically
below "A". -/
theorem c7_amended :
    (∀ n : Nat, ltCs (List.replicate (n + 1) 32) 0
        = .ok [.tmpl (.exactT (List.replicate n 32))])
    ∧ strLtSynth (strTry []) [32] = .ok (some { data := [], synthesized := true })
    ∧ ltCs [65] 0 = .ok [.tmpl (.midT [] 32 64)]
    ∧ (∀ m, matchesB (.midT [] 32 64) m = true →
        strLtB m [65] = true ∧ m.isEmpty = false) := by
  refine ⟨?_, ?_, ?_, ?_⟩
  · intro n
    rw [ltCs, if_neg (by simp)]
    rw [ltScan_replicate32]
    rfl
  · simp [strLtSynth, ltCs, ltScan, strTry, strHoldsB, matchesB, Except.map]
  · simp [ltCs, ltScan, Except.map]
  · intro m hm
    simp only [matchesB, Bool.and_eq_true, beq_iff_eq, decide_eq_true_eq,
      List.length_nil, List.take_zero] at hm
    obtain ⟨⟨⟨-, hlen⟩, hlo, hhi⟩, -⟩ := hm
    refine ⟨strLtB_eq_take_lt 0 m [65] (by simp) hlen (by simp)
      (by simp only [List.getD_cons_zero]; omega), ?_⟩
    cases m with
    | nil => simp at hlen
    | cons a s => rfl

/-- C7, witness for the amended statement at concrete inputs. -/
theorem c7_amended_witness :
    ltCs [32] 0 = .ok [.tmpl (.exactT [])]
    ∧ matchesB (.midT [] 32 64) [40] = true
    ∧ (strLtB [40] [65] = true ∧ ([40] : List Nat).isEmpty = false) :=
  ⟨c7_amended.1 0, by decide, c7_amended.2.2.2 [40] (by decide)⟩

/-- C8, counterexample.  The well-formedness constraint that
`eq_constraint` actually adds is `If(chars[i+1] == 0, chars[i] == 0,
True)`: a sentinel forces the PRECEDING position to be a sentinel, the
reverse of the claim.  The array of 49 sentinels followed by the code
65 satisfies every constraint of `eq_constraint` (here with the
sum-of-codes function and target 65), yet position 0 holds the sentinel
while position 49 does not. -/
theorem c8_counterexample :
    strEqSatB sumChars 65 xsC8 = true ∧ specWfFwd xsC8 = false :=
  ⟨by decide, by decide⟩

/-- C8, amended.  In `eq_constraint`'s character array the sentinel
propagates BACKWARD: for every satisfying array, a sentinel at any
position forces a sentinel at every earlier position (the string
content, if any, sits at the tail of the array). -/
theorem c8_amended (f : List Int → Int) (t : Int) (xs : List Int)
    (h : strEqSatB f t xs = true) :
    ∀ i j : Nat, i ≤ j → j ≤ 49 → xs.getD j 0 = 0 → xs.getD i 0 = 0 := by
  have hwf : eqWfOK xs = true := by
    simp only [strEqSatB, Bool.and_eq_true] at h
    exact h.1.2
  have step : ∀ k : Nat, k < 49 → xs.getD (k + 1) 0 = 0 → xs.getD k 0 = 0 := by
    intro k hk hz
    have hk' := List.all_eq_true.mp hwf k (by simpa [List.mem_range] using hk)
    simp only [Bool.or_eq_true, bne_iff_ne, ne_eq, beq_iff_eq] at hk'
    rcases hk' with h' | h'
    · exact absurd hz h'
    · exact h'
  intro i j hij hj hz
  obtain ⟨d, rfl⟩ := Nat.exists_eq_add_of_le hij
  clear hij
  revert hz
  revert hj
  induction d with
  | zero => intro _ hz; simpa using hz
  | succ d ih =>
    intro hj hz
    exact ih (by omega) (step (i + d) (by omega) hz)

/-- C8, witness for the amended statement: the array of 48 sentinels
followed by the codes 65 and 66 satisfies `eq_constraint` for the
sum-of-codes function at target 131, and the amendment yields the
sentinel at position 30 from the sentinel at position 47. -/
theorem c8_amended_witness :
    strEqSatB sumChars 131 xsC8w = true ∧ xsC8w.getD 30 0 = 0 :=
  ⟨by decide, c8_amended sumChars 131 xsC8w (by decide) 30 47 (by decide) (by decide)
    (by decide)⟩

/-- Unfolding of the string bounded synthesis when the lt-scan fails. -/
theorem strBoundedSynthesis_lt_error (oracle : List StrC → Option (List Nat))
    (ub lb : List Nat) (e : PyErr) (h1 : ub.isEmpty = false) (h2 : lb.isEmpty = false)
    (h3 : strLeB ub lb = false) (hsc : ltScan ub (commonPrefixLen ub lb) = .error e) :
    strBoundedSynthesis oracle (some ub) (some lb) = .error e := by
  simp only [strBoundedSynthesis]
  rw [if_neg (by simp [h1, h2]), if_neg (by simp [h3]), ltCs, if_neg (by simp [h1]), hsc]
  rfl

/-- Unfolding of the string bounded synthesis when the lt-scan succeeds
and the gt-scan fails. -/
theorem strBoundedSynthesis_gt_error (oracle : List StrC → Option (List Nat))
    (ub lb : List Nat) (t1 : Template) (e : PyErr) (h1 : ub.isEmpty = false)
    (h2 : lb.isEmpty = false) (h3 : strLeB ub lb = false)
    (hsc : ltScan ub (commonPrefixLen ub lb) = .ok t1)
    (hsc2 : gtScan lb (commonPrefixLen ub lb) = .error e) :
    strBoundedSynthesis oracle (some ub) (some lb) = .error e := by
  simp only [strBoundedSynthesis]
  rw [if_neg (by simp [h1, h2]), if_neg (by simp [h3]), ltCs, if_neg (by simp [h1]), hsc,
    gtCs, if_neg (by simp [h2]), hsc2]
  rfl

/-- Unfolding of the string bounded synthesis when both scans succeed. -/
theorem strBoundedSynthesis_ok (oracle : List StrC → Option (List Nat))
    (ub lb : List Nat) (t1 t2 : Template) (h1 : ub.isEmpty = false)
    (h2 : lb.isEmpty = false) (h3 : strLeB ub lb = false)
    (hsc : ltScan ub (commonPrefixLen ub lb) = .ok t1)
    (hsc2 : gtScan lb (commonPrefixLen ub lb) = .ok t2) :
    strBoundedSynthesis oracle (some ub) (some lb) =
      .ok ((oracle [.tmpl t1, .tmpl t2]).map
        (fun m => { data := m, synthesized := true })) := by
  simp only [strBoundedSynthesis]
  rw [if_neg (by simp [h1, h2]), if_neg (by simp [h3]), ltCs, if_neg (by simp [h1]), hsc,
    gtCs, if_neg (by simp [h2]), hsc2]
  rfl

/-- C3, counterexample.  The bounds (upper 5, lower 0) are structurally
valid in the claim's sense — both present and 0 < 5 — yet the integer
bounded synthesis raises ValueError, because `if not upper_bound or not
lower_bound` treats the Python-falsy bound 0 as missing.  And for the
bit-vector domain with bounds (upper 5, lower -3), a model-checking
solver soundly proposes the word 0xFFFFFFFF (signed value -1, strictly
between -3 and 5), and `to_python` returns its UNSIGNED `as_long()`
value 4294967295, far outside the open interval. -/
theorem c3_counterexample :
    intBoundedSynthesis (fun _ => none) (some 5) (some 0) = .error .valueError
    ∧ decide ((0 : Int) < 5) = true
    ∧ bvBoundedSynthesis (bvTry 32 4294967295) (some 5) (some (-3)) =
        .ok (some { val := 4294967295, synthesized := true })
    ∧ decide ((4294967295 : Int) < 5) = false := by
  refine ⟨rfl, by decide, rfl, by decide⟩

/-- C3, amended.  For each domain, `bounded_synthesis` succeeds exactly
when neither bound is missing or Python-falsy (the integer 0, the empty
string), the upper bound is strictly above the lower, and (strings) the
scans meet no out-of-charset character; and on success with a sound
solver any returned value lies strictly between the bounds — for the
integer and string domains in the ordinary order, for the bit-vector
domain only in the SIGNED 32-bit view, the returned Python integer
being the unsigned reading of the model word. -/
theorem c3_amended :
    (∀ (oracle : List IntC → Option Int) (u l : Option Int),
      isOkE (intBoundedSynthesis oracle u l) = !intBoundedInvalid u l)
    ∧ (∀ (oracle : List IntC → Option Int) (a b : Int) (w : UntrustedInt),
      intOracleSound oracle → intBoundedSynthesis oracle (some a) (some b) = .ok (some w) →
      b < w.val ∧ w.val < a)
    ∧ (∀ (oracle : List BVC → Option Nat) (u l : Option Int),
      isOkE (bvBoundedSynthesis oracle u l) = !intBoundedInvalid u l)
    ∧ (∀ (oracle : List BVC → Option Nat) (a b : Int) (w : UntrustedInt),
      bvOracleSound 32 oracle → bvBoundedSynthesis oracle (some a) (some b) = .ok (some w) →
      0 ≤ w.val ∧ w.val < 2 ^ 32
        ∧ sview 32 (bvCoe 32 b) < sview 32 w.val.toNat
        ∧ sview 32 w.val.toNat < sview 32 (bvCoe 32 a))
    ∧ (∀ (oracle : List StrC → Option (List Nat)) (u l : Option (List Nat)),
      isOkE (strBoundedSynthesis oracle u l) = !strBoundedInvalid u l)
    ∧ (∀ (oracle : List StrC → Option (List Nat)) (ub lb : List Nat) (w : UntrustedStr),
      strOracleSound oracle →
      strBoundedSynthesis oracle (some ub) (some lb) = .ok (some w) →
      strLtB lb w.data = true ∧ strLtB w.data ub = true) := by
  refine ⟨?_, ?_, ?_, ?_, ?_, ?_⟩
  · intro oracle u l
    cases u with
    | none => cases l <;> rfl
    | some a =>
      cases l with
      | none => rfl
      | some b =>
        simp only [intBoundedSynthesis, intBoundedInvalid]
        by_cases h1 : a = 0 ∨ b = 0
        · rw [if_pos h1]
          have hr : (a == 0 || (b == 0 || decide (a ≤ b))) = true := by
            rcases h1 with h | h <;> simp [h]
          rw [Bool.or_assoc, hr]
          rfl
        · rw [if_neg h1]
          push_neg at h1
          have e1 : (a == 0) = false := by simp [h1.1]
          have e2 : (b == 0) = false := by simp [h1.2]
          by_cases h2 : a ≤ b
          · rw [if_pos h2]
            simp [e1, e2, h2, isOkE]
          · rw [if_neg h2]
            simp [e1, e2, h2, isOkE]
  · intro oracle a b w hs hrun
    simp only [intBoundedSynthesis] at hrun
    by_cases h1 : a = 0 ∨ b = 0
    · rw [if_pos h1] at hrun
      simp at hrun
    · rw [if_neg h1] at hrun
      by_cases h2 : a ≤ b
      · rw [if_pos h2] at hrun
        simp at hrun
      rw [if_neg h2, Except.ok.injEq] at hrun
      obtain ⟨n, hn, hw⟩ := Option.map_eq_some'.mp hrun
      have hall := hs _ n hn
      have hlt := hall (IntC.clt a) (by simp)
      have hgt := hall (IntC.cgt b) (by simp)
      simp only [intHoldsB, decide_eq_true_eq] at hlt hgt
      subst hw
      exact ⟨hgt, hlt⟩
  · intro oracle u l
    cases u with
    | none => cases l <;> rfl
    | some a =>
      cases l with
      | none => rfl
      | some b =>
        simp only [bvBoundedSynthesis, intBoundedInvalid]
        by_cases h1 : a = 0 ∨ b = 0
        · rw [if_pos h1]
          have hr : (a == 0 || (b == 0 || decide (a ≤ b))) = true := by
            rcases h1 with h | h <;> simp [h]
          rw [Bool.or_assoc, hr]
          rfl
        · rw [if_neg h1]
          push_neg at h1
          have e1 : (a == 0) = false := by simp [h1.1]
          have e2 : (b == 0) = false := by simp [h1.2]
          by_cases h2 : a ≤ b
          · rw [if_pos h2]
            simp [e1, e2, h2, isOkE]
          · rw [if_neg h2]
            simp [e1, e2, h2, isOkE]
  · intro oracle a b w hs hrun
    simp only [bvBoundedSynthesis] at hrun
    by_cases h1 : a = 0 ∨ b = 0
    · rw [if_pos h1] at hrun
      simp at hrun
    · rw [if_neg h1] at hrun
      by_cases h2 : a ≤ b
      · rw [if_pos h2] at hrun
        simp at hrun
      rw [if_neg h2] at hrun
      cases hn : oracle [BVC.bclt a, BVC.bcgt b] with
      | none =>
        rw [hn] at hrun
        simp at hrun
      | some n =>
        rw [hn] at hrun
        injection hrun with hrun
        injection hrun with hrun
        obtain ⟨hrange, hall⟩ := hs _ n hn
        have hlt := hall (BVC.bclt a) (by simp)
        have hgt := hall (BVC.bcgt b) (by simp)
        simp only [bvHoldsB, decide_eq_true_eq] at hlt hgt
        subst hrun
        dsimp only
        refine ⟨Int.natCast_nonneg n, by exact_mod_cast hrange, ?_, ?_⟩
        · simpa using hgt
        · simpa using hlt
  · intro oracle u l
    cases u with
    | none => cases l <;> rfl
    | some ub =>
      cases l with
      | none => rfl
      | some lb =>
        by_cases hub : ub.isEmpty = true
        · simp only [strBoundedSynthesis, strBoundedInvalid]
          rw [if_pos (by simp [hub]), hub]
          rfl
        · replace hub : ub.isEmpty = false := by simpa using hub
          by_cases hlb : lb.isEmpty = true
          · simp only [strBoundedSynthesis, strBoundedInvalid]
            rw [if_pos (by simp [hlb]), hlb]
            simp [isOkE]
          · replace hlb : lb.isEmpty = false := by simpa using hlb
            by_cases hle : strLeB ub lb = true
            · simp only [strBoundedSynthesis, strBoundedInvalid]
              rw [if_neg (by simp [hub, hlb]), if_pos hle, hub, hlb, hle]
              simp [isOkE]
            · replace hle : strLeB ub lb = false := by simpa using hle
              have hltiff := ltScan_ok_iff ub (commonPrefixLen ub lb)
              have hgtiff := gtScan_ok_iff lb (commonPrefixLen ub lb)
              cases hsc : ltScan ub (commonPrefixLen ub lb) with
              | error e =>
                rw [strBoundedSynthesis_lt_error oracle ub lb e hub hlb hle hsc]
                rw [hsc] at hltiff
                have hbad : ltBad ub (commonPrefixLen ub lb) = true := by
                  simpa [isOkE] using hltiff.symm
                simp [isOkE, strBoundedInvalid, hbad]
              | ok t1 =>
                rw [hsc] at hltiff
                have hok1 : ltBad ub (commonPrefixLen ub lb) = false := by
                  simpa [isOkE] using hltiff.symm
                cases hsc2 : gtScan lb (commonPrefixLen ub lb) with
                | error e =>
                  rw [strBoundedSynthesis_gt_error oracle ub lb t1 e hub hlb hle hsc hsc2]
                  rw [hsc2] at hgtiff
                  have hbad : gtBad lb (commonPrefixLen ub lb) = true := by
                    simpa [isOkE] using hgtiff.symm
                  simp [isOkE, strBoundedInvalid, hbad]
                | ok t2 =>
                  rw [strBoundedSynthesis_ok oracle ub lb t1 t2 hub hlb hle hsc hsc2]
                  rw [hsc2] at hgtiff
                  have hok2 : gtBad lb (commonPrefixLen ub lb) = false := by
                    simpa [isOkE] using hgtiff.symm
                  simp [isOkE, strBoundedInvalid, hub, hlb, hle, hok1, hok2]
  · intro oracle ub lb w hs hrun
    have hub : ub.isEmpty = false := by
      by_contra hc
      rw [Bool.not_eq_false] at hc
      simp only [strBoundedSynthesis] at hrun
      rw [if_pos (by simp [hc])] at hrun
      simp at hrun
    have hlb : lb.isEmpty = false := by
      by_contra hc
      rw [Bool.not_eq_false] at hc
      simp only [strBoundedSynthesis] at hrun
      rw [if_pos (by simp [hc])] at hrun
      simp at hrun
    have hle : strLeB ub lb = false := by
      by_contra hc
      rw [Bool.not_eq_false] at hc
      simp only [strBoundedSynthesis] at hrun
      rw [if_neg (by simp [hub, hlb]), if_pos hc] at hrun
      simp at hrun
    cases hsc : ltScan ub (commonPrefixLen ub lb) with
    | error e =>
      rw [strBoundedSynthesis_lt_error oracle ub lb e hub hlb hle hsc] at hrun
      simp at hrun
    | ok t1 =>
      cases hsc2 : gtScan lb (commonPrefixLen ub lb) with
      | error e =>
        rw [strBoundedSynthesis_gt_error oracle ub lb t1 e hub hlb hle hsc hsc2] at hrun
        simp at hrun
      | ok t2 =>
        rw [strBoundedSynthesis_ok oracle ub lb t1 t2 hub hlb hle hsc hsc2] at hrun
        rw [Except.ok.injEq] at hrun
        obtain ⟨m, hm, hw⟩ := Option.map_eq_some'.mp hrun
        have hall := hs _ m hm
        have h1 := hall (.tmpl t1) (by simp)
        have h2 := hall (.tmpl t2) (by simp)
        simp only [strHoldsB] at h1 h2
        subst hw
        refine ⟨gtScan_sound lb _ t2 hsc2 m h2, ?_⟩
        refine ltScan_sound ub ?_ _ t1 hsc m h1
        cases ub with
        | nil => simp at hub
        | cons a s => simp

/-- C3, witness for the amended statement at concrete inputs: integer
bounds (5, 2) with a solver proposing 3; bit-vector bounds (5, 2) with a
solver proposing the word 3; string bounds ("C", "A") with a solver
proposing "B". -/
theorem c3_amended_witness :
    isOkE (intBoundedSynthesis (intTry 3) (some 5) (some 2))
        = !intBoundedInvalid (some 5) (some 2)
    ∧ ((2 : Int) < ({ val := 3, synthesized := true } : UntrustedInt).val
        ∧ ({ val := 3, synthesized := true } : UntrustedInt).val < 5)
    ∧ isOkE (bvBoundedSynthesis (bvTry 32 3) (some 5) (some 2))
        = !intBoundedInvalid (some 5) (some 2)
    ∧ (0 ≤ ({ val := 3, synthesized := true } : UntrustedInt).val
        ∧ ({ val := 3, synthesized := true } : UntrustedInt).val < 2 ^ 32
        ∧ sview 32 (bvCoe 32 2) < sview 32 ({ val := 3, synthesized := true } : UntrustedInt).val.toNat
        ∧ sview 32 ({ val := 3, synthesized := true } : UntrustedInt).val.toNat < sview 32 (bvCoe 32 5))
    ∧ isOkE (strBoundedSynthesis (strTry [66]) (some [67]) (some [65]))
        = !strBoundedInvalid (some [67]) (some [65])
    ∧ (strLtB [65] ({ data := [66], synthesized := true } : UntrustedStr).data = true
        ∧ strLtB ({ data := [66], synthesized := true } : UntrustedStr).data [67] = true) :=
  ⟨c3_amended.1 (intTry 3) (some 5) (some 2),
   c3_amended.2.1 (intTry 3) 5 2 { val := 3, synthesized := true } (intTry_sound 3) rfl,
   c3_amended.2.2.1 (bvTry 32 3) (some 5) (some 2),
   c3_amended.2.2.2.1 (bvTry 32 3) 5 2 { val := 3, synthesized := true } (bvTry_sound 32 3)
     rfl,
   c3_amended.2.2.2.2.1 (strTry [66]) (some [67]) (some [65]),
   c3_amended.2.2.2.2.2 (strTry [66]) [67] [65] { data := [66], synthesized := true }
     (strTry_sound [66])
     (by simp [strBoundedSynthesis, strLeB, strLtB, ltCs, gtCs, ltScan, gtScan,
       commonPrefixLen, strTry, strHoldsB, matchesB, inCS, Except.map])⟩
